import Mathlib

/-! pie.cpp : Monte-Carlo estimate of pi from the unit square

A shallow embedding of `src/pie.cpp`.

* `unsigned long int` values are natural numbers, reduced modulo `2 ^ 64`
  at every place where the program adds to them.
* `double` values are elements of a linearly ordered field `R`.  Every
  arithmetic operation of the program is followed by a rounding
  `rnd : R → R`, and the square root of `<math.h>` is passed in as
  `sqrt : R → R`.  Two instances are used:
  - `R = ℚ`, `rnd = rnd64`, `sqrt = sqrt64`: IEEE binary64 with rounding to
    nearest, ties to even, each operation rounded on its own (no fused
    multiply-add, no extended precision).  This is the arithmetic the
    program runs.  Results beyond the largest finite double are not
    modelled; none occurs in the program.
  - `R = ℝ`, `rnd = id`, `sqrt = Real.sqrt`: exact arithmetic, for the
    statements that are made over the real numbers.
* The generator `std::mt19937 g(myseed)` together with
  `std::uniform_real_distribution<double> u` is library code; it enters as a
  parameter `gen : Nat → Nat → R`, where `gen myseed k` is the value of the
  `k`-th call `u(g)` made by the thread whose generator was seeded `myseed`.
* The OpenMP runtime enters through the number of threads `numtasks` and
  through `order`, the order in which the private copies of `nhits` are
  added into the shared variable when the parallel region ends.
-/

namespace Pie

/-- Line 81: `const unsigned long int NTRIALS = 10L*1000000L;`. -/
def NTRIALS : Nat := 10 * 1000000

/-- Number of values of an `unsigned long int`. -/
def ULONG_MOD : Nat := 2 ^ 64

section Doubles

variable {R : Type} [LinearOrderedField R]

/-- Line 83: `const double xyval = 1.0/sqrt(2.0);`. -/
def xyval (rnd sqrt : R → R) : R := rnd (1 / sqrt 2)

/-- Line 84: `const double xwidth = 1.0 - xyval;`. -/
def xwidth (rnd sqrt : R → R) : R := rnd (1 - xyval rnd sqrt)

/-- Line 105: `x = xyval + xwidth*u(g);` with `u1` the value of `u(g)`. -/
def x (rnd sqrt : R → R) (u1 : R) : R :=
  rnd (xyval rnd sqrt + rnd (xwidth rnd sqrt * u1))

/-- Line 106: `y = xyval*u(g);` with `u2` the value of `u(g)`. -/
def y (rnd sqrt : R → R) (u2 : R) : R := rnd (xyval rnd sqrt * u2)

/-- Line 107: `rsq = x*x + y*y;`. -/
def rsq (rnd sqrt : R → R) (u1 u2 : R) : R :=
  rnd (rnd (x rnd sqrt u1 * x rnd sqrt u1) + rnd (y rnd sqrt u2 * y rnd sqrt u2))

/-- The variables a thread changes while it runs the loop of lines 104-111:
the counter `i`, the number of calls `u(g)` made so far, and the thread's
private copy of `nhits`. -/
structure Loop where
  i : Nat
  drawn : Nat
  nhits : Nat
  deriving DecidableEq, Repr

/-- Lines 105-110, one execution of the loop body.  The first call `u(g)`
gives `x`, the second gives `y`; `nhits++` is an `unsigned long int`
increment. -/
def body (rnd sqrt : R → R) (u : Nat → R) (st : Loop) : Loop :=
  { i := st.i
    drawn := st.drawn + 2
    nhits := if rsq rnd sqrt (u st.drawn) (u (st.drawn + 1)) ≤ 1
             then (st.nhits + 1) % ULONG_MOD else st.nhits }

/-- Line 104: `for (unsigned long int i=0; i<Npertask; i++) body`.
The increment `i++` cannot wrap because `i < Npertask` holds when it runs. -/
def forLoop (rnd sqrt : R → R) (u : Nat → R) (Npertask : Nat) (st : Loop) : Loop :=
  if st.i < Npertask then
    forLoop rnd sqrt u Npertask { body rnd sqrt u st with i := st.i + 1 }
  else st
termination_by Npertask - st.i
decreasing_by
  simp_wf
  omega

/-- Line 98: `unsigned long int myseed = seed + taskid;`. -/
def myseed (seed taskid : Nat) : Nat := (seed + taskid) % ULONG_MOD

/-- What one thread has when it reaches the critical section of line 112. -/
structure Task where
  myseed : Nat
  trials : Nat
  drawn : Nat
  nhits : Nat
  deriving DecidableEq, Repr

/-- Lines 95-111 for the thread `taskid` of a team of `numtasks` threads,
with `ntrials` in the place of `NTRIALS`.  The reduction clause gives the
thread a private `nhits` that starts at `0`. -/
def task (rnd sqrt : R → R) (gen : Nat → Nat → R) (ntrials seed numtasks taskid : Nat) :
    Task :=
  let Npertask := ntrials / numtasks
  let fin := forLoop rnd sqrt (gen (myseed seed taskid)) Npertask
    { i := 0, drawn := 0, nhits := 0 }
  { myseed := myseed seed taskid, trials := fin.i, drawn := fin.drawn, nhits := fin.nhits }

end Doubles

/-- The clause `reduction(+:nhits)` of line 93: when the region ends, the
private copies `h t` are added, in the order `order`, into the shared
variable, whose value before the region is `orig`. -/
def reduction (h : Nat → Nat) (order : List Nat) (orig : Nat) : Nat :=
  order.foldl (fun acc t => (acc + h t) % ULONG_MOD) orig

section Doubles

variable {R : Type} [LinearOrderedField R]

/-- Lines 91-119: the shared `nhits` after the parallel region. -/
def parallelRegion (rnd sqrt : R → R) (gen : Nat → Nat → R)
    (ntrials seed numtasks : Nat) (order : List Nat) : Nat :=
  reduction (fun t => (task rnd sqrt gen ntrials seed numtasks t).nhits) order 0

/-- Line 125: `double p = double(nhits)/double(NTRIALS);`. -/
def p (rnd : R → R) (ntrials nhits : Nat) : R :=
  rnd (rnd (nhits : R) / rnd (ntrials : R))

/-- Line 127: `double f1 = xyval*xyval;`. -/
def f1 (rnd sqrt : R → R) : R := rnd (xyval rnd sqrt * xyval rnd sqrt)

/-- Line 128: `double f2 = (1.0-xyval)*(1.0-xyval);`. -/
def f2 (rnd sqrt : R → R) : R :=
  rnd (rnd (1 - xyval rnd sqrt) * rnd (1 - xyval rnd sqrt))

/-- Line 129: `double f3 = (1.0-xyval)*xyval;`. -/
def f3 (rnd sqrt : R → R) : R := rnd (rnd (1 - xyval rnd sqrt) * xyval rnd sqrt)

/-- Line 130: `double f4 = f3;`. -/
def f4 (rnd sqrt : R → R) : R := f3 rnd sqrt

/-- Line 135: `double fest = f1 + (f3+f4)*p;`. -/
def fest (rnd sqrt : R → R) (prob : R) : R :=
  rnd (f1 rnd sqrt + rnd (rnd (f3 rnd sqrt + f4 rnd sqrt) * prob))

/-- Line 136: `double pie_estimate = 4.0*fest;`. -/
def pie_estimate (rnd sqrt : R → R) (prob : R) : R := rnd (4 * fest rnd sqrt prob)

/-- Line 139: `double varn = double(NTRIALS)*p*(1.0-p);`. -/
def varn (rnd : R → R) (ntrials : Nat) (prob : R) : R :=
  rnd (rnd (rnd (ntrials : R) * prob) * rnd (1 - prob))

/-- Line 140: `double errp = sqrt(varn)/double(NTRIALS);`. -/
def errp (rnd sqrt : R → R) (ntrials : Nat) (prob : R) : R :=
  rnd (sqrt (varn rnd ntrials prob) / rnd (ntrials : R))

/-- Line 141: `double errpie = 4.0*(f3+f4)*errp;`. -/
def errpie (rnd sqrt : R → R) (ntrials : Nat) (prob : R) : R :=
  rnd (rnd (4 * rnd (f3 rnd sqrt + f4 rnd sqrt)) * errp rnd sqrt ntrials prob)

/-- The numbers the program prints after the parallel region. -/
structure Report (R : Type) where
  nhits : Nat
  p : R
  pie_estimate : R
  errpie : R

/-- Lines 122-156, the master block, run on the reduced `nhits`. -/
def master (rnd sqrt : R → R) (ntrials nhits : Nat) : Report R :=
  { nhits := nhits
    p := p rnd ntrials nhits
    pie_estimate := pie_estimate rnd sqrt (p rnd ntrials nhits)
    errpie := errpie rnd sqrt ntrials (p rnd ntrials nhits) }

/-- The program from line 91 on: parallel region, then the master block. -/
def main (rnd sqrt : R → R) (gen : Nat → Nat → R) (seed numtasks : Nat)
    (order : List Nat) : Report R :=
  master rnd sqrt NTRIALS (parallelRegion rnd sqrt gen NTRIALS seed numtasks order)

end Doubles

/-- The number of the first `n` trials of a stream `u` that are hits: trial
`k` uses `u (2*k)` for `x` and `u (2*k+1)` for `y` and is a hit when the
program's `rsq = x*x + y*y` satisfies `rsq ≤ 1`. -/
def hitCount {R : Type} [LinearOrderedField R] (rnd sqrt : R → R) (u : Nat → R) (n : Nat) :
    Nat :=
  (List.range n).countP (fun k => decide (rsq rnd sqrt (u (2 * k)) (u (2 * k + 1)) ≤ 1))

/-- The spec's binomial variance of `p`: `var(p) = p(1-p)/N`. -/
def spec_var {R : Type} [LinearOrderedField R] (N : Nat) (prob : R) : R :=
  prob * (1 - prob) / (N : R)

/-- The spec's propagated error: `err_pi = 4*(f3+f4)*sqrt(var(p))`. -/
def spec_err_pi {R : Type} [LinearOrderedField R] (rnd sqrt : R → R) (N : Nat)
    (prob : R) : R :=
  4 * (f3 rnd sqrt + f4 rnd sqrt) * sqrt (spec_var N prob)

/-- Region 3 of the decomposition, `x ∈ [s,1)`, `y ∈ [0,s)` with `s = xyval`:
the region the loop samples. -/
def region3 (sqrt : ℝ → ℝ) : Set (ℝ × ℝ) :=
  {q | xyval id sqrt ≤ q.1 ∧ q.1 < 1 ∧ 0 ≤ q.2 ∧ q.2 < xyval id sqrt}

/-- Region 4 of the decomposition, `x ∈ [0,s)`, `y ∈ [s,1)` with `s = xyval`. -/
def region4 (sqrt : ℝ → ℝ) : Set (ℝ × ℝ) :=
  {q | 0 ≤ q.1 ∧ q.1 < xyval id sqrt ∧ xyval id sqrt ≤ q.2 ∧ q.2 < 1}

/-- The points of a region that the test `rsq<=1.0` of line 110 counts. -/
def inside (region : Set (ℝ × ℝ)) : Set (ℝ × ℝ) :=
  {q | q ∈ region ∧ q.1 * q.1 + q.2 * q.2 ≤ 1}

/-! ## IEEE binary64 -/

/-- Rounding of a rational to an integer, to nearest, ties to even. -/
def roundEven (t : ℚ) : ℤ :=
  if t - ⌊t⌋ < 1 / 2 then ⌊t⌋
  else if 1 / 2 < t - ⌊t⌋ then ⌊t⌋ + 1
  else if ⌊t⌋ % 2 = 0 then ⌊t⌋ else ⌊t⌋ + 1

/-- The unit in the last place of the binary64 numbers of the binade of
`q > 0`: `2 ^ (e - 52)` with `2 ^ e ≤ q < 2 ^ (e + 1)`, and `2 ^ (-1074)` for
subnormal `q`. -/
def ulp64 (q : ℚ) : ℚ := 2 ^ (max (Int.log 2 q) (-1022) - 52)

/-- Rounding to binary64 (53-bit significand, nearest, ties to even). -/
def rnd64 (q : ℚ) : ℚ :=
  if 0 ≤ q then (roundEven (q / ulp64 q) : ℚ) * ulp64 q
  else -((roundEven (-q / ulp64 (-q)) : ℚ) * ulp64 (-q))

/-- The correctly rounded binary64 square root of a positive number: with
`ulp` the unit in the last place of the binade of the root, the root of
`t = q / ulp ^ 2` lies in `[n, n+1)` for `n = Nat.sqrt ⌊t⌋`, and comparing `t`
with `(n + 1/2) ^ 2` picks the nearer of `n` and `n + 1`. -/
def sqrt64 (q : ℚ) : ℚ :=
  let ulp : ℚ := 2 ^ (Int.log 2 q / 2 - 52)
  let t : ℚ := q / (ulp * ulp)
  let n : ℕ := Nat.sqrt ⌊t⌋₊
  let c : ℚ := ((n : ℚ) + 1 / 2) * ((n : ℚ) + 1 / 2)
  let m : ℕ := if t < c then n else if c < t then n + 1 else if n % 2 = 0 then n else n + 1
  (m : ℚ) * ulp

/-! ## The sampling loop -/

theorem hitCount_le {R : Type} [LinearOrderedField R] (rnd sqrt : R → R) (u : Nat → R)
    (n : Nat) : hitCount rnd sqrt u n ≤ n := by
  unfold hitCount
  exact le_trans (List.countP_le_length _) (by simp)

theorem hitCount_succ {R : Type} [LinearOrderedField R] (rnd sqrt : R → R) (u : Nat → R)
    (n : Nat) :
    hitCount rnd sqrt u (n + 1) =
      hitCount rnd sqrt u n + (if rsq rnd sqrt (u (2 * n)) (u (2 * n + 1)) ≤ 1 then 1 else 0) := by
  unfold hitCount
  rw [List.range_succ, List.countP_append]
  by_cases h : rsq rnd sqrt (u (2 * n)) (u (2 * n + 1)) ≤ 1
  · simp [h]
  · simp [h]

/-- Loop invariant: a loop entered after `st.i` trials of the stream leaves
after `Npertask` trials. -/
theorem forLoop_from {R : Type} [LinearOrderedField R] (rnd sqrt : R → R) (u : Nat → R)
    (Npertask : Nat) (hN : Npertask < ULONG_MOD) :
    ∀ (d : Nat) (st : Loop), Npertask - st.i = d → st.i ≤ Npertask →
      st.drawn = 2 * st.i → st.nhits = hitCount rnd sqrt u st.i →
      forLoop rnd sqrt u Npertask st =
        { i := Npertask, drawn := 2 * Npertask, nhits := hitCount rnd sqrt u Npertask } := by
  intro d
  induction d with
  | zero =>
    intro st hd hle hdr hh
    have hi : st.i = Npertask := by omega
    rw [forLoop, if_neg (by omega)]
    cases st
    simp_all
  | succ d ih =>
    intro st hd hle hdr hh
    have hlt : st.i < Npertask := by omega
    rw [forLoop, if_pos hlt]
    apply ih
    · simp only []
      omega
    · simp only []
      omega
    · simp only [body]
      omega
    · have hb := hitCount_le rnd sqrt u st.i
      simp only [body, hitCount_succ, hdr, hh]
      split
      · apply Nat.mod_eq_of_lt
        omega
      · rfl

theorem forLoop_run {R : Type} [LinearOrderedField R] (rnd sqrt : R → R) (u : Nat → R)
    (Npertask : Nat) (hN : Npertask < ULONG_MOD) :
    forLoop rnd sqrt u Npertask { i := 0, drawn := 0, nhits := 0 } =
      { i := Npertask, drawn := 2 * Npertask, nhits := hitCount rnd sqrt u Npertask } :=
  forLoop_from rnd sqrt u Npertask hN Npertask _ rfl (Nat.zero_le _) rfl (by simp [hitCount])

theorem NTRIALS_div_lt (numtasks : Nat) : NTRIALS / numtasks < ULONG_MOD :=
  lt_of_le_of_lt (Nat.div_le_self _ _) (by norm_num [NTRIALS, ULONG_MOD])

theorem task_eq {R : Type} [LinearOrderedField R] (rnd sqrt : R → R) (gen : Nat → Nat → R)
    (ntrials seed numtasks taskid : Nat) (hN : ntrials / numtasks < ULONG_MOD) :
    task rnd sqrt gen ntrials seed numtasks taskid =
      { myseed := myseed seed taskid
        trials := ntrials / numtasks
        drawn := 2 * (ntrials / numtasks)
        nhits := hitCount rnd sqrt (gen (myseed seed taskid)) (ntrials / numtasks) } := by
  simp only [task, forLoop_run rnd sqrt _ _ hN]

/-- C2. For every rounding, team size `W ≥ 1`, base seed, thread and stream of
variates, the thread's loop runs exactly `NTRIALS / W` trials and makes exactly
`2 * (NTRIALS / W)` calls `u(g)`; its private `nhits` is the number of those
trials whose `rsq = x*x + y*y`, as the program computes it, is `≤ 1`, hence at
most `NTRIALS / W`; and a loop body whose trial has `rsq` exactly `1` counts
it (the comparison is inclusive). -/
theorem C2_sampler {R : Type} [LinearOrderedField R] (rnd sqrt : R → R)
    (gen : Nat → Nat → R) (seed W taskid : Nat) (hW : 1 ≤ W) :
    (task rnd sqrt gen NTRIALS seed W taskid).trials = NTRIALS / W ∧
    (task rnd sqrt gen NTRIALS seed W taskid).drawn = 2 * (NTRIALS / W) ∧
    (task rnd sqrt gen NTRIALS seed W taskid).nhits =
      ((List.range (NTRIALS / W)).filter (fun k =>
        decide (rnd (rnd (x rnd sqrt (gen ((seed + taskid) % ULONG_MOD) (2 * k)) *
                          x rnd sqrt (gen ((seed + taskid) % ULONG_MOD) (2 * k))) +
                     rnd (y rnd sqrt (gen ((seed + taskid) % ULONG_MOD) (2 * k + 1)) *
                          y rnd sqrt (gen ((seed + taskid) % ULONG_MOD) (2 * k + 1))))
                ≤ 1))).length ∧
    0 ≤ (task rnd sqrt gen NTRIALS seed W taskid).nhits ∧
    (task rnd sqrt gen NTRIALS seed W taskid).nhits ≤ NTRIALS / W ∧
    (∀ (u : Nat → R) (st : Loop), st.nhits + 1 < ULONG_MOD →
      rsq rnd sqrt (u st.drawn) (u (st.drawn + 1)) = 1 →
      (body rnd sqrt u st).nhits = st.nhits + 1) := by
  have hW0 : 0 < W := hW
  rw [task_eq rnd sqrt gen NTRIALS seed W taskid (NTRIALS_div_lt W)]
  refine ⟨rfl, rfl, ?_, Nat.zero_le _, hitCount_le _ _ _ _, ?_⟩
  · simp only [hitCount, rsq, myseed, List.countP_eq_length_filter]
  · intro u st hlt hr
    simp only [body, hr, le_refl, if_true]
    exact Nat.mod_eq_of_lt hlt

/-! ## The reduction -/

theorem ULONG_MOD_pos : 0 < ULONG_MOD := by norm_num [ULONG_MOD]

theorem reduction_eq_sum (h : Nat → Nat) (order : List Nat) (orig : Nat)
    (horig : orig < ULONG_MOD) :
    reduction h order orig = (orig + (order.map h).sum) % ULONG_MOD := by
  unfold reduction
  induction order generalizing orig with
  | nil =>
    simp only [List.foldl_nil, List.map_nil, List.sum_nil, Nat.add_zero]
    exact (Nat.mod_eq_of_lt horig).symm
  | cons t rest ih =>
    simp only [List.foldl_cons, List.map_cons, List.sum_cons]
    rw [ih _ (Nat.mod_lt _ ULONG_MOD_pos), Nat.mod_add_mod, Nat.add_assoc]

theorem reduction_perm (h : Nat → Nat) (order₁ order₂ : List Nat) (orig : Nat)
    (hp : order₁.Perm order₂) :
    reduction h order₁ orig = reduction h order₂ orig := by
  unfold reduction
  induction hp generalizing orig with
  | nil => rfl
  | cons a _ ih => simp only [List.foldl_cons, ih]
  | swap a b l =>
    simp only [List.foldl_cons]
    congr 1
    rw [Nat.mod_add_mod, Nat.mod_add_mod, Nat.add_right_comm]
  | trans _ _ ih₁ ih₂ => rw [ih₁, ih₂]

theorem sum_map_range (h : Nat → Nat) (W : Nat) :
    ((List.range W).map h).sum = ∑ i ∈ Finset.range W, h i := by
  induction W with
  | zero => simp
  | succ n ih =>
    rw [List.range_succ, List.map_append, List.sum_append, ih, Finset.sum_range_succ]
    simp

theorem sum_range_le (h : Nat → Nat) (W b : Nat) (hb : ∀ i, h i ≤ b) :
    ∑ i ∈ Finset.range W, h i ≤ W * b := by
  calc ∑ i ∈ Finset.range W, h i ≤ ∑ _i ∈ Finset.range W, b :=
        Finset.sum_le_sum (fun i _ => hb i)
    _ = W * b := by simp

theorem task_nhits_le {R : Type} [LinearOrderedField R] (rnd sqrt : R → R)
    (gen : Nat → Nat → R) (ntrials seed numtasks taskid : Nat)
    (hN : ntrials / numtasks < ULONG_MOD) :
    (task rnd sqrt gen ntrials seed numtasks taskid).nhits ≤ ntrials / numtasks := by
  rw [task_eq rnd sqrt gen ntrials seed numtasks taskid hN]
  exact hitCount_le _ _ _ _

/-- The shared `nhits` after the region is the plain sum of the private
counts, whenever the trial target fits an `unsigned long int`. -/
theorem parallelRegion_eq_sum {R : Type} [LinearOrderedField R] (rnd sqrt : R → R)
    (gen : Nat → Nat → R) (ntrials seed W : Nat) (order : List Nat)
    (hN : ntrials < ULONG_MOD) (hp : order.Perm (List.range W)) :
    parallelRegion rnd sqrt gen ntrials seed W order =
      ∑ i ∈ Finset.range W, (task rnd sqrt gen ntrials seed W i).nhits := by
  have hdiv : ntrials / W < ULONG_MOD := lt_of_le_of_lt (Nat.div_le_self _ _) hN
  unfold parallelRegion
  rw [reduction_eq_sum _ _ _ ULONG_MOD_pos, Nat.zero_add, (hp.map _).sum_eq, sum_map_range]
  apply Nat.mod_eq_of_lt
  have h1 : ∑ i ∈ Finset.range W, (task rnd sqrt gen ntrials seed W i).nhits ≤
      W * (ntrials / W) :=
    sum_range_le _ W (ntrials / W) (fun i => task_nhits_le rnd sqrt gen ntrials seed W i hdiv)
  have h2 : W * (ntrials / W) ≤ ntrials := Nat.mul_div_le ntrials W
  omega

/-- C1. For every team size `W ≥ 1`, every stream and every order in which
the private counts are combined, the `nhits` printed as `Total nhits` is the
exact sum of the `W` private counts (the 64-bit accumulator does not wrap),
it is at most `W * (NTRIALS / W) ≤ NTRIALS`, and the number of trials never
run, `NTRIALS - W * (NTRIALS / W)`, is at most `W - 1`. -/
theorem C1_reduction {R : Type} [LinearOrderedField R] (rnd sqrt : R → R)
    (gen : Nat → Nat → R) (seed W : Nat) (order : List Nat)
    (hW : 1 ≤ W) (hp : order.Perm (List.range W)) :
    NTRIALS = 10000000 ∧
    (main rnd sqrt gen seed W order).nhits =
      ∑ i ∈ Finset.range W, (task rnd sqrt gen NTRIALS seed W i).nhits ∧
    (main rnd sqrt gen seed W order).nhits ≤ W * (NTRIALS / W) ∧
    W * (NTRIALS / W) ≤ NTRIALS ∧
    NTRIALS - W * (NTRIALS / W) ≤ W - 1 := by
  have hN : NTRIALS < ULONG_MOD := by norm_num [NTRIALS, ULONG_MOD]
  have hsum : (main rnd sqrt gen seed W order).nhits =
      ∑ i ∈ Finset.range W, (task rnd sqrt gen NTRIALS seed W i).nhits :=
    parallelRegion_eq_sum rnd sqrt gen NTRIALS seed W order hN hp
  refine ⟨by norm_num [NTRIALS], hsum, ?_, Nat.mul_div_le _ _, ?_⟩
  · rw [hsum]
    exact sum_range_le _ W _ (fun i => task_nhits_le rnd sqrt gen NTRIALS seed W i (NTRIALS_div_lt W))
  · have hmod : NTRIALS % W < W := Nat.mod_lt _ hW
    have hdm : W * (NTRIALS / W) + NTRIALS % W = NTRIALS := Nat.div_add_mod _ _
    omega

/-! ## Seeds -/

theorem task_myseed {R : Type} [LinearOrderedField R] (rnd sqrt : R → R)
    (gen : Nat → Nat → R) (ntrials seed numtasks taskid : Nat) :
    (task rnd sqrt gen ntrials seed numtasks taskid).myseed = (seed + taskid) % 2 ^ 64 := rfl

theorem myseed_injOn (seed i j : Nat) (hi : i < ULONG_MOD) (hj : j < ULONG_MOD)
    (h : myseed seed i = myseed seed j) : i = j := by
  unfold myseed at h
  have h1 : i % ULONG_MOD = j % ULONG_MOD := Nat.ModEq.add_left_cancel' seed h
  rwa [Nat.mod_eq_of_lt hi, Nat.mod_eq_of_lt hj] at h1

/-- C6. For every base seed `S` and thread `i` of a team of `W ≤ 2 ^ 32`
threads, the thread's seed is `(S + i) mod 2 ^ 64`; the seeds of two different
threads of the team differ; and base seed `1` with four threads gives the
seeds `1, 2, 3, 4`. -/
theorem C6_seeds {R : Type} [LinearOrderedField R] (rnd sqrt : R → R)
    (gen : Nat → Nat → R) (ntrials S W i j : Nat)
    (hW : W ≤ 2 ^ 32) (hi : i < W) (hj : j < W) (hij : i ≠ j) :
    (task rnd sqrt gen ntrials S W i).myseed = (S + i) % 2 ^ 64 ∧
    (task rnd sqrt gen ntrials S W i).myseed ≠ (task rnd sqrt gen ntrials S W j).myseed ∧
    (List.range 4).map (fun t => (task rnd sqrt gen ntrials 1 4 t).myseed) = [1, 2, 3, 4] := by
  have hi' : i < ULONG_MOD := by
    have : (2 : Nat) ^ 32 < ULONG_MOD := by norm_num [ULONG_MOD]
    omega
  have hj' : j < ULONG_MOD := by
    have : (2 : Nat) ^ 32 < ULONG_MOD := by norm_num [ULONG_MOD]
    omega
  refine ⟨rfl, fun h => hij (myseed_injOn S i j hi' hj' h), ?_⟩
  simp only [task_myseed]
  decide

/-! ## Determinism -/

/-- C8. With the trial target `N`, base seed `S` and team size `W` fixed,
every thread's seed and private count are given by `S`, `W`, `N` and the
seeded stream alone, and two runs that combine the private counts in
different orders report the same `nhits`, the same probability, the same
estimate of pi and the same error; the reduction gives the same value for
every permutation of the order of its additions. -/
theorem C8_determinism {R : Type} [LinearOrderedField R] (rnd sqrt : R → R)
    (gen : Nat → Nat → R) (N S W : Nat) (order₁ order₂ : List Nat)
    (hN : N < ULONG_MOD) (hW : 1 ≤ W)
    (h₁ : order₁.Perm (List.range W)) (h₂ : order₂.Perm (List.range W)) :
    (∀ t, (task rnd sqrt gen N S W t).myseed = (S + t) % 2 ^ 64 ∧
          (task rnd sqrt gen N S W t).nhits = hitCount rnd sqrt (gen ((S + t) % 2 ^ 64)) (N / W)) ∧
    parallelRegion rnd sqrt gen N S W order₁ = parallelRegion rnd sqrt gen N S W order₂ ∧
    master rnd sqrt N (parallelRegion rnd sqrt gen N S W order₁) =
      master rnd sqrt N (parallelRegion rnd sqrt gen N S W order₂) ∧
    main rnd sqrt gen S W order₁ = main rnd sqrt gen S W order₂ ∧
    (∀ (h : Nat → Nat) (orig : Nat) (order : List Nat), order.Perm order₁ →
      reduction h order orig = reduction h order₁ orig) := by
  have hW0 : 0 < W := hW
  have hdiv : N / W < ULONG_MOD := lt_of_le_of_lt (Nat.div_le_self _ _) hN
  have hperm : order₁.Perm order₂ := h₁.trans h₂.symm
  have hreg : ∀ M, parallelRegion rnd sqrt gen M S W order₁ =
      parallelRegion rnd sqrt gen M S W order₂ :=
    fun M => reduction_perm _ _ _ _ hperm
  refine ⟨fun t => ⟨rfl, ?_⟩, hreg N, by rw [hreg N], ?_, ?_⟩
  · rw [task_eq rnd sqrt gen N S W t hdiv]
    rfl
  · unfold main
    rw [hreg NTRIALS]
  · intro h orig order hp
    exact reduction_perm h order order₁ orig hp

/-! ## The split point over the real numbers -/

theorem xyval_pos : 0 < xyval id Real.sqrt := by
  simp only [xyval, id_eq]
  positivity

theorem xyval_mul_self : xyval id Real.sqrt * xyval id Real.sqrt = 1 / 2 := by
  simp only [xyval, id_eq]
  rw [div_mul_div_comm, Real.mul_self_sqrt (by norm_num)]
  norm_num

theorem xyval_lt_one : xyval id Real.sqrt < 1 := by
  nlinarith [xyval_pos, xyval_mul_self]

theorem xwidth_pos : 0 < xwidth id Real.sqrt := by
  simp only [xwidth, id_eq]
  linarith [xyval_lt_one]

theorem xyval_eq_sqrt_half : xyval id Real.sqrt = Real.sqrt 2 / 2 := by
  have h2 : Real.sqrt 2 * Real.sqrt 2 = 2 := Real.mul_self_sqrt (by norm_num)
  have hpos : 0 < Real.sqrt 2 := by positivity
  simp only [xyval, id_eq]
  field_simp

/-! ## Regions -/

/-- In exact arithmetic, with `s = 1/sqrt 2` over the reals, variates `u1, u2`
in `[0,1)` give a point with `s ≤ x < 1` and `0 ≤ y < s`; so the point is
neither in region 1 (`x < s` and `y < s`) nor in region 2 (`x ≥ s` and
`y ≥ s`). -/
theorem region_exclusivity_exact (u1 u2 : ℝ)
    (h1 : 0 ≤ u1) (h1' : u1 < 1) (h2 : 0 ≤ u2) (h2' : u2 < 1) :
    (xyval id Real.sqrt ≤ x id Real.sqrt u1 ∧ x id Real.sqrt u1 < 1) ∧
    (0 ≤ y id Real.sqrt u2 ∧ y id Real.sqrt u2 < xyval id Real.sqrt) ∧
    ¬ (x id Real.sqrt u1 < xyval id Real.sqrt ∧ y id Real.sqrt u2 < xyval id Real.sqrt) ∧
    ¬ (x id Real.sqrt u1 ≥ xyval id Real.sqrt ∧ y id Real.sqrt u2 ≥ xyval id Real.sqrt) := by
  have hs := xyval_pos
  have hw := xwidth_pos
  have hx0 : xyval id Real.sqrt ≤ x id Real.sqrt u1 := by
    simp only [x, id_eq]
    nlinarith [mul_nonneg hw.le h1]
  have hx1 : x id Real.sqrt u1 < 1 := by
    have hlt : xwidth id Real.sqrt * u1 < xwidth id Real.sqrt * 1 :=
      mul_lt_mul_of_pos_left h1' hw
    simp only [x, id_eq]
    simp only [xwidth, id_eq] at hlt ⊢
    linarith
  have hy0 : 0 ≤ y id Real.sqrt u2 := mul_nonneg hs.le h2
  have hy1 : y id Real.sqrt u2 < xyval id Real.sqrt := by
    have hlt : xyval id Real.sqrt * u2 < xyval id Real.sqrt * 1 :=
      mul_lt_mul_of_pos_left h2' hs
    simp only [y, id_eq]
    linarith
  refine ⟨⟨hx0, hx1⟩, ⟨hy0, hy1⟩, ?_, ?_⟩
  · rintro ⟨hlt, _⟩
    exact absurd hlt (not_lt.mpr hx0)
  · rintro ⟨_, hge⟩
    exact absurd hy1 (not_lt.mpr hge)

/-- The boundary of the test is met by a trial: over the reals there are
variates in `[0,1)` whose point is `(4/5, 3/5)`, with `rsq` exactly `1`. -/
theorem rsq_eq_one_reached :
    ∃ u1 u2 : ℝ, (0 ≤ u1 ∧ u1 < 1) ∧ (0 ≤ u2 ∧ u2 < 1) ∧ rsq id Real.sqrt u1 u2 = 1 := by
  have hs := xyval_pos
  have hss := xyval_mul_self
  have h1 := xyval_lt_one
  have hw : 0 < 1 - xyval id Real.sqrt := by linarith
  have hlo : xyval id Real.sqrt < 4 / 5 := by nlinarith
  have hhi : (3 / 5 : ℝ) < xyval id Real.sqrt := by nlinarith
  refine ⟨(4 / 5 - xyval id Real.sqrt) / (1 - xyval id Real.sqrt), (3 / 5) / xyval id Real.sqrt,
    ⟨div_nonneg (by linarith) hw.le, ?_⟩, ⟨div_nonneg (by norm_num) hs.le, ?_⟩, ?_⟩
  · rw [div_lt_one hw]
    linarith
  · rw [div_lt_one hs]
    exact hhi
  · have hx : x id Real.sqrt ((4 / 5 - xyval id Real.sqrt) / (1 - xyval id Real.sqrt)) = 4 / 5 := by
      simp only [x, xwidth, id_eq]
      field_simp
      ring
    have hy : y id Real.sqrt ((3 / 5) / xyval id Real.sqrt) = 3 / 5 := by
      simp only [y, id_eq]
      field_simp
      ring
    simp only [rsq, id_eq]
    rw [hx, hy]
    norm_num

/-- C4. With `s = 1/sqrt 2` over the reals: a point `(a, b)` of region 1
(`0 ≤ a < s`, `0 ≤ b < s`) has `a*a + b*b ≤ 1`, and a point `(c, d)` of
region 2 (`s ≤ c < 1`, `s ≤ d < 1`) has `c*c + d*d ≥ 1`. -/
theorem C4_geometric_decomposition (a b c d : ℝ)
    (ha : 0 ≤ a) (ha' : a < xyval id Real.sqrt) (hb : 0 ≤ b) (hb' : b < xyval id Real.sqrt)
    (hc : xyval id Real.sqrt ≤ c) (_hc : c < 1) (hd : xyval id Real.sqrt ≤ d) (_hd : d < 1) :
    a * a + b * b ≤ 1 ∧ c * c + d * d ≥ 1 := by
  have hs := xyval_pos
  have hss := xyval_mul_self
  constructor
  · have h1 : a * a ≤ xyval id Real.sqrt * xyval id Real.sqrt :=
      mul_le_mul ha'.le ha'.le ha hs.le
    have h2 : b * b ≤ xyval id Real.sqrt * xyval id Real.sqrt :=
      mul_le_mul hb'.le hb'.le hb hs.le
    linarith
  · have h1 : xyval id Real.sqrt * xyval id Real.sqrt ≤ c * c :=
      mul_le_mul hc hc hs.le (hs.le.trans hc)
    have h2 : xyval id Real.sqrt * xyval id Real.sqrt ≤ d * d :=
      mul_le_mul hd hd hs.le (hs.le.trans hd)
    linarith

/-! ## Area fractions -/

theorem f1_eq : f1 id Real.sqrt = 1 / 2 := xyval_mul_self

theorem f3_add_f4 : f3 id Real.sqrt + f4 id Real.sqrt = 2 * xyval id Real.sqrt - 1 := by
  simp only [f4, f3, id_eq]
  linarith [xyval_mul_self]

theorem f3_pos : 0 < f3 id Real.sqrt := by
  simp only [f3, id_eq]
  exact mul_pos (by linarith [xyval_lt_one]) xyval_pos

/-- C5. With `s = 1/sqrt 2` over the reals, the fractions the program
computes satisfy `f1 = 1/2`, `f4 = f3` and `f1 + f2 + f3 + f4 = 1`, so the sum
is within `1e-9` of `1`. -/
theorem C5_area_fractions :
    f1 id Real.sqrt = 1 / 2 ∧
    f4 id Real.sqrt = f3 id Real.sqrt ∧
    f1 id Real.sqrt + f2 id Real.sqrt + f3 id Real.sqrt + f4 id Real.sqrt = 1 ∧
    |f1 id Real.sqrt + f2 id Real.sqrt + f3 id Real.sqrt + f4 id Real.sqrt - 1| ≤ 1 / 1000000000 := by
  have hsum : f1 id Real.sqrt + f2 id Real.sqrt + f3 id Real.sqrt + f4 id Real.sqrt = 1 := by
    simp only [f1, f2, f4, f3, id_eq]
    ring
  refine ⟨f1_eq, rfl, hsum, ?_⟩
  rw [hsum]
  norm_num

/-! ## The error formula -/

theorem errp_eq (N : Nat) (prob : ℝ) (hN : 0 < N) :
    errp id Real.sqrt N prob = Real.sqrt (prob * (1 - prob)) / Real.sqrt N := by
  have hNr : (0 : ℝ) < (N : ℝ) := by exact_mod_cast hN
  have hs : 0 < Real.sqrt (N : ℝ) := Real.sqrt_pos.mpr hNr
  have hmul : Real.sqrt (N : ℝ) * Real.sqrt (N : ℝ) = (N : ℝ) := Real.mul_self_sqrt hNr.le
  simp only [errp, varn, id_eq]
  rw [mul_assoc, Real.sqrt_mul hNr.le, div_eq_div_iff hNr.ne' hs.ne']
  calc Real.sqrt (N : ℝ) * Real.sqrt (prob * (1 - prob)) * Real.sqrt (N : ℝ)
      = Real.sqrt (prob * (1 - prob)) * (Real.sqrt (N : ℝ) * Real.sqrt (N : ℝ)) := by ring
    _ = Real.sqrt (prob * (1 - prob)) * (N : ℝ) := by rw [hmul]

/-- C7. For every `N > 0` and `p` in `[0,1]`, the error the program computes,
`4*(f3+f4)*sqrt(N*p*(1-p))/N`, equals the specified
`4*(f3+f4)*sqrt(p*(1-p)/N)`, and equals `4*(f3+f4)*sqrt(p*(1-p))/sqrt(N)`; so
at fixed `p` the product of the error and `sqrt(N)` is the same for all
trial counts. -/
theorem C7_error_formula (N : Nat) (prob : ℝ) (hN : 0 < N)
    (_h0 : 0 ≤ prob) (_h1 : prob ≤ 1) :
    errpie id Real.sqrt N prob = spec_err_pi id Real.sqrt N prob ∧
    errpie id Real.sqrt N prob =
      4 * (f3 id Real.sqrt + f4 id Real.sqrt) * Real.sqrt (prob * (1 - prob)) / Real.sqrt N ∧
    (∀ M : Nat, 0 < M →
      errpie id Real.sqrt M prob * Real.sqrt M = errpie id Real.sqrt N prob * Real.sqrt N) := by
  have hNr : (0 : ℝ) ≤ (N : ℝ) := Nat.cast_nonneg N
  have key : ∀ M : Nat, 0 < M → errpie id Real.sqrt M prob * Real.sqrt M =
      4 * (f3 id Real.sqrt + f4 id Real.sqrt) * Real.sqrt (prob * (1 - prob)) := by
    intro M hM
    have hMr : (0 : ℝ) < (M : ℝ) := by exact_mod_cast hM
    have hs : Real.sqrt (M : ℝ) ≠ 0 := (Real.sqrt_pos.mpr hMr).ne'
    simp only [errpie, id_eq]
    rw [errp_eq M prob hM]
    field_simp
  refine ⟨?_, ?_, fun M hM => ?_⟩
  · simp only [errpie, spec_err_pi, spec_var, id_eq]
    rw [errp_eq N prob hN, Real.sqrt_div' _ hNr]
  · simp only [errpie, id_eq]
    rw [errp_eq N prob hN]
    ring
  · rw [key M hM, key N hN]

/-! ## Range of the estimate -/

theorem parallelRegion_le {R : Type} [LinearOrderedField R] (rnd sqrt : R → R)
    (gen : Nat → Nat → R) (ntrials seed W : Nat) (order : List Nat)
    (hN : ntrials < ULONG_MOD) (hp : order.Perm (List.range W)) :
    parallelRegion rnd sqrt gen ntrials seed W order ≤ W * (ntrials / W) := by
  rw [parallelRegion_eq_sum rnd sqrt gen ntrials seed W order hN hp]
  exact sum_range_le _ W _ (fun i => task_nhits_le rnd sqrt gen ntrials seed W i
    (lt_of_le_of_lt (Nat.div_le_self _ _) hN))

theorem NTRIALS_lt : NTRIALS < ULONG_MOD := by norm_num [NTRIALS, ULONG_MOD]

theorem pie_estimate_mono (a b : ℝ) (hab : a ≤ b) :
    pie_estimate id Real.sqrt a ≤ pie_estimate id Real.sqrt b := by
  have h34 : 0 ≤ f3 id Real.sqrt + f4 id Real.sqrt := by
    simp only [f4, id_eq]
    linarith [f3_pos]
  simp only [pie_estimate, fest, id_eq]
  nlinarith [mul_le_mul_of_nonneg_left hab h34]

theorem hitCount_zero_stream (n : Nat) : hitCount id Real.sqrt (fun _ => 0) n = n := by
  have hss := xyval_mul_self
  unfold hitCount
  rw [List.countP_eq_length.mpr, List.length_range]
  intro k _
  simp only [rsq, x, y, id_eq, mul_zero, add_zero, decide_eq_true_eq]
  linarith

/-- The bound `p ≤ 1` is attained: when `W` divides `NTRIALS` and every trial
is a hit (as for the all-zero stream, whose point is `(s, 0)`), the program
computes `p = 1`. -/
theorem p_eq_one_reached (seed W : Nat) (order : List Nat) (_hW : 1 ≤ W)
    (hdvd : W ∣ NTRIALS) (hp : order.Perm (List.range W)) :
    (main id Real.sqrt (fun _ _ => 0) seed W order).p = 1 := by
  have hH : parallelRegion id Real.sqrt (fun _ _ => (0 : ℝ)) NTRIALS seed W order = NTRIALS := by
    rw [parallelRegion_eq_sum id Real.sqrt _ NTRIALS seed W order NTRIALS_lt hp]
    have hterm : ∀ i ∈ Finset.range W,
        (task id Real.sqrt (fun _ _ => (0 : ℝ)) NTRIALS seed W i).nhits = NTRIALS / W := by
      intro i _
      rw [task_eq id Real.sqrt _ NTRIALS seed W i (NTRIALS_div_lt W)]
      exact hitCount_zero_stream _
    rw [Finset.sum_congr rfl hterm, Finset.sum_const, Finset.card_range, smul_eq_mul]
    exact Nat.mul_div_cancel' hdvd
  have hpdef : (main id Real.sqrt (fun _ _ => (0 : ℝ)) seed W order).p =
      ((parallelRegion id Real.sqrt (fun _ _ => (0 : ℝ)) NTRIALS seed W order : Nat) : ℝ) /
        (NTRIALS : ℝ) := rfl
  have hNpos : (0 : ℝ) < (NTRIALS : ℝ) := by norm_num [NTRIALS]
  rw [hpdef, hH, div_self hNpos.ne']

/-- In exact arithmetic over the reals: for every team size `W ≥ 1`, stream and
order of the reduction, `p = nhits / NTRIALS` satisfies
`0 ≤ p ≤ W*(NTRIALS/W)/NTRIALS ≤ 1`, and `p = 1` forces `W` to divide
`NTRIALS`; the radicand `NTRIALS*p*(1-p)` is not negative; and the estimate of
pi lies between `4*f1 = 2` and `4*(f1+f3+f4) = 4*sqrt 2 - 2`. -/
theorem estimator_range_exact (gen : Nat → Nat → ℝ) (seed W : Nat) (order : List Nat)
    (hW : 1 ≤ W) (hp : order.Perm (List.range W)) :
    (main id Real.sqrt gen seed W order).p =
      ((main id Real.sqrt gen seed W order).nhits : ℝ) / (10000000 : ℝ) ∧
    0 ≤ (main id Real.sqrt gen seed W order).p ∧
    (main id Real.sqrt gen seed W order).p ≤
      ((W * (NTRIALS / W) : Nat) : ℝ) / (NTRIALS : ℝ) ∧
    ((W * (NTRIALS / W) : Nat) : ℝ) / (NTRIALS : ℝ) ≤ 1 ∧
    ((main id Real.sqrt gen seed W order).p = 1 → W ∣ NTRIALS) ∧
    0 ≤ varn id NTRIALS (main id Real.sqrt gen seed W order).p ∧
    4 * f1 id Real.sqrt ≤ (main id Real.sqrt gen seed W order).pie_estimate ∧
    (main id Real.sqrt gen seed W order).pie_estimate ≤
      4 * (f1 id Real.sqrt + f3 id Real.sqrt + f4 id Real.sqrt) ∧
    4 * f1 id Real.sqrt = 2 ∧
    4 * (f1 id Real.sqrt + f3 id Real.sqrt + f4 id Real.sqrt) = 4 * Real.sqrt 2 - 2 := by
  have hW0 : 0 < W := hW
  have hNpos : (0 : ℝ) < (NTRIALS : ℝ) := by norm_num [NTRIALS]
  have hH : parallelRegion id Real.sqrt gen NTRIALS seed W order ≤ W * (NTRIALS / W) :=
    parallelRegion_le id Real.sqrt gen NTRIALS seed W order NTRIALS_lt hp
  have hWN : W * (NTRIALS / W) ≤ NTRIALS := Nat.mul_div_le _ _
  have hpdef : (main id Real.sqrt gen seed W order).p =
      ((parallelRegion id Real.sqrt gen NTRIALS seed W order : Nat) : ℝ) / (NTRIALS : ℝ) := rfl
  have hp0 : 0 ≤ (main id Real.sqrt gen seed W order).p := by
    rw [hpdef]
    positivity
  have hpb : (main id Real.sqrt gen seed W order).p ≤
      ((W * (NTRIALS / W) : Nat) : ℝ) / (NTRIALS : ℝ) := by
    rw [hpdef]
    exact div_le_div_of_nonneg_right (by exact_mod_cast hH) hNpos.le
  have hb1 : ((W * (NTRIALS / W) : Nat) : ℝ) / (NTRIALS : ℝ) ≤ 1 := by
    rw [div_le_one hNpos]
    exact_mod_cast hWN
  have hp1 : (main id Real.sqrt gen seed W order).p ≤ 1 := hpb.trans hb1
  have hest : (main id Real.sqrt gen seed W order).pie_estimate =
      pie_estimate id Real.sqrt (main id Real.sqrt gen seed W order).p := rfl
  have hlo : 4 * f1 id Real.sqrt = pie_estimate id Real.sqrt 0 := by
    simp only [pie_estimate, fest, id_eq]
    ring
  have hhi : 4 * (f1 id Real.sqrt + f3 id Real.sqrt + f4 id Real.sqrt) = pie_estimate id Real.sqrt 1 := by
    simp only [pie_estimate, fest, id_eq]
    ring
  refine ⟨?_, hp0, hpb, hb1, ?_, ?_, ?_, ?_, ?_, ?_⟩
  · rw [hpdef]
    norm_num [NTRIALS]
    rfl
  · intro h1
    rw [hpdef, div_eq_one_iff_eq hNpos.ne'] at h1
    have hHN : parallelRegion id Real.sqrt gen NTRIALS seed W order = NTRIALS := by
      exact_mod_cast h1
    have heq : W * (NTRIALS / W) = NTRIALS := by omega
    exact ⟨NTRIALS / W, heq.symm⟩
  · simp only [varn, id_eq]
    exact mul_nonneg (mul_nonneg hNpos.le hp0) (by linarith)
  · rw [hlo, hest]
    exact pie_estimate_mono _ _ hp0
  · rw [hhi, hest]
    exact pie_estimate_mono _ _ hp1
  · rw [f1_eq]
    norm_num
  · have h34 := f3_add_f4
    rw [xyval_eq_sqrt_half] at h34
    rw [add_assoc, h34, f1_eq]
    ring

/-! ## Areas -/

theorem integral_sqrt_arc :
    ∫ t in (Real.sqrt 2 / 2)..1, Real.sqrt (1 - t ^ 2) = Real.pi / 8 - 1 / 4 := by
  have hg : Continuous (fun t : ℝ => Real.sqrt (1 - t ^ 2)) := by fun_prop
  have hsub : ∫ θ in (Real.pi / 4)..(Real.pi / 2),
      ((fun t : ℝ => Real.sqrt (1 - t ^ 2)) ∘ Real.sin) θ * Real.cos θ =
      ∫ t in Real.sin (Real.pi / 4)..Real.sin (Real.pi / 2), Real.sqrt (1 - t ^ 2) :=
    intervalIntegral.integral_comp_mul_deriv
      (fun θ _ => Real.hasDerivAt_sin θ) Real.continuousOn_cos hg
  rw [Real.sin_pi_div_four, Real.sin_pi_div_two] at hsub
  rw [← hsub]
  have hle : Real.pi / 4 ≤ Real.pi / 2 := by linarith [Real.pi_pos]
  have hcongr : ∫ θ in (Real.pi / 4)..(Real.pi / 2),
      ((fun t : ℝ => Real.sqrt (1 - t ^ 2)) ∘ Real.sin) θ * Real.cos θ =
      ∫ θ in (Real.pi / 4)..(Real.pi / 2), Real.cos θ ^ 2 := by
    apply intervalIntegral.integral_congr
    intro θ hθ
    rw [Set.uIcc_of_le hle, Set.mem_Icc] at hθ
    have hc : 0 ≤ Real.cos θ :=
      Real.cos_nonneg_of_neg_pi_div_two_le_of_le (by linarith [Real.pi_pos]) hθ.2
    have h1 : 1 - Real.sin θ ^ 2 = Real.cos θ ^ 2 := by
      linarith [Real.sin_sq_add_cos_sq θ]
    simp only [Function.comp_apply, h1, Real.sqrt_sq hc]
    ring
  rw [hcongr, integral_cos_sq, Real.cos_pi_div_two, Real.sin_pi_div_two,
    Real.cos_pi_div_four, Real.sin_pi_div_four]
  have h2 : Real.sqrt 2 * Real.sqrt 2 = 2 := Real.mul_self_sqrt (by norm_num)
  nlinarith [h2]

theorem measurableSet_region3 : MeasurableSet (region3 Real.sqrt) := by
  simp only [region3, id_eq]
  have h1 : MeasurableSet {q : ℝ × ℝ | xyval id Real.sqrt ≤ q.1} :=
    measurableSet_le measurable_const measurable_fst
  have h2 : MeasurableSet {q : ℝ × ℝ | q.1 < 1} :=
    measurableSet_lt measurable_fst measurable_const
  have h3 : MeasurableSet {q : ℝ × ℝ | 0 ≤ q.2} :=
    measurableSet_le measurable_const measurable_snd
  have h4 : MeasurableSet {q : ℝ × ℝ | q.2 < xyval id Real.sqrt} :=
    measurableSet_lt measurable_snd measurable_const
  exact h1.inter (h2.inter (h3.inter h4))

theorem measurableSet_inside (region : Set (ℝ × ℝ)) (h : MeasurableSet region) :
    MeasurableSet (inside region) := by
  have h1 : MeasurableSet {q : ℝ × ℝ | q.1 * q.1 + q.2 * q.2 ≤ 1} :=
    measurableSet_le (by fun_prop) measurable_const
  exact h.inter h1

/-- The vertical slice of the hit set of region 3 at abscissa `a`. -/
theorem slice_volume (a : ℝ) :
    MeasureTheory.volume (Set.preimage (Prod.mk a) (inside (region3 Real.sqrt))) =
      Set.indicator (Set.Ico (xyval id Real.sqrt) 1)
        (fun t => ENNReal.ofReal (Real.sqrt (1 - t ^ 2))) a := by
  have hs := xyval_pos
  have hss := xyval_mul_self
  by_cases ha : a ∈ Set.Ico (xyval id Real.sqrt) 1
  · rw [Set.indicator_of_mem ha]
    obtain ⟨ha1, ha2⟩ := ha
    have ha0 : 0 ≤ a := hs.le.trans ha1
    have hrad : 0 ≤ 1 - a ^ 2 := by nlinarith
    have hr0 : 0 ≤ Real.sqrt (1 - a ^ 2) := Real.sqrt_nonneg _
    have hrr : Real.sqrt (1 - a ^ 2) * Real.sqrt (1 - a ^ 2) = 1 - a ^ 2 :=
      Real.mul_self_sqrt hrad
    have hrs : Real.sqrt (1 - a ^ 2) ≤ xyval id Real.sqrt := by
      by_contra hcon
      push_neg at hcon
      nlinarith [mul_lt_mul'' hcon hcon hs.le hs.le, mul_le_mul ha1 ha1 hs.le ha0]
    apply le_antisymm
    · calc MeasureTheory.volume (Set.preimage (Prod.mk a) (inside (region3 Real.sqrt)))
          ≤ MeasureTheory.volume (Set.Icc 0 (Real.sqrt (1 - a ^ 2))) := by
            apply MeasureTheory.measure_mono
            rintro b ⟨⟨_, _, hb0, _⟩, hb⟩
            refine ⟨hb0, Real.le_sqrt_of_sq_le ?_⟩
            simp only [] at hb
            nlinarith
        _ = ENNReal.ofReal (Real.sqrt (1 - a ^ 2)) := by
            rw [Real.volume_Icc, sub_zero]
    · calc ENNReal.ofReal (Real.sqrt (1 - a ^ 2))
          = MeasureTheory.volume (Set.Ico 0 (Real.sqrt (1 - a ^ 2))) := by
            rw [Real.volume_Ico, sub_zero]
        _ ≤ MeasureTheory.volume (Set.preimage (Prod.mk a) (inside (region3 Real.sqrt))) := by
            apply MeasureTheory.measure_mono
            rintro b ⟨hb0, hb1⟩
            refine ⟨⟨ha1, ha2, hb0, lt_of_lt_of_le hb1 hrs⟩, ?_⟩
            simp only []
            nlinarith [mul_lt_mul'' hb1 hb1 hb0 hb0]
  · rw [Set.indicator_of_not_mem ha]
    have hempty : Set.preimage (Prod.mk a) (inside (region3 Real.sqrt)) = ∅ := by
      ext b
      simp only [Set.mem_preimage, Set.mem_empty_iff_false, iff_false]
      rintro ⟨⟨h1, h2, _, _⟩, _⟩
      exact ha ⟨h1, h2⟩
    rw [hempty, MeasureTheory.measure_empty]

theorem volume_inside_region3 :
    MeasureTheory.volume (inside (region3 Real.sqrt)) =
      ENNReal.ofReal (Real.pi / 8 - 1 / 4) := by
  have hcont : Continuous (fun t : ℝ => Real.sqrt (1 - t ^ 2)) := by fun_prop
  have hint : MeasureTheory.IntegrableOn (fun t : ℝ => Real.sqrt (1 - t ^ 2))
      (Set.Ico (xyval id Real.sqrt) 1) MeasureTheory.volume :=
    (hcont.integrableOn_Icc).mono_set Set.Ico_subset_Icc_self
  rw [MeasureTheory.Measure.volume_eq_prod,
    MeasureTheory.Measure.prod_apply (measurableSet_inside _ measurableSet_region3)]
  simp only [slice_volume]
  rw [MeasureTheory.lintegral_indicator measurableSet_Ico,
    ← MeasureTheory.ofReal_integral_eq_lintegral_ofReal hint
      (Filter.Eventually.of_forall (fun t => Real.sqrt_nonneg _)),
    MeasureTheory.integral_Ico_eq_integral_Ioo, ← MeasureTheory.integral_Ioc_eq_integral_Ioo,
    ← intervalIntegral.integral_of_le xyval_lt_one.le, xyval_eq_sqrt_half, integral_sqrt_arc]

theorem region3_eq_prod :
    region3 Real.sqrt =
      Set.Ico (xyval id Real.sqrt) 1 ×ˢ Set.Ico 0 (xyval id Real.sqrt) := by
  ext q
  simp only [region3, Set.mem_setOf_eq, Set.mem_prod, Set.mem_Ico, and_assoc]

theorem volume_region3 :
    MeasureTheory.volume (region3 Real.sqrt) = ENNReal.ofReal (f3 id Real.sqrt) := by
  have hs := xyval_pos
  have h1 := xyval_lt_one
  rw [region3_eq_prod, MeasureTheory.Measure.volume_eq_prod, MeasureTheory.Measure.prod_prod,
    Real.volume_Ico, Real.volume_Ico, sub_zero, ← ENNReal.ofReal_mul (by linarith)]
  rfl

theorem swap_region3 : Set.image Prod.swap (region3 Real.sqrt) = region4 Real.sqrt := by
  rw [Set.image_swap_eq_preimage_swap]
  ext q
  simp only [region3, region4, Set.mem_preimage, Set.mem_setOf_eq, Prod.fst_swap,
    Prod.snd_swap]
  tauto

theorem swap_inside_region3 :
    Set.image Prod.swap (inside (region3 Real.sqrt)) = inside (region4 Real.sqrt) := by
  rw [Set.image_swap_eq_preimage_swap]
  ext q
  simp only [inside, region3, region4, Set.mem_preimage, Set.mem_setOf_eq, Prod.fst_swap,
    Prod.snd_swap]
  constructor
  · rintro ⟨⟨h1, h2, h3, h4⟩, h5⟩
    exact ⟨⟨h3, h4, h1, h2⟩, by linarith⟩
  · rintro ⟨⟨h1, h2, h3, h4⟩, h5⟩
    exact ⟨⟨h3, h4, h1, h2⟩, by linarith⟩

theorem volume_image_swap (A : Set (ℝ × ℝ)) (hA : MeasurableSet A) :
    MeasureTheory.volume (Set.image Prod.swap A) = MeasureTheory.volume A := by
  rw [Set.image_swap_eq_preimage_swap]
  exact (MeasureTheory.Measure.measurePreserving_swap).measure_preimage
    hA.nullMeasurableSet

/-! ## Exactness of the estimator -/

theorem pi_eighth_pos : 0 ≤ Real.pi / 8 - 1 / 4 := by
  linarith [Real.pi_gt_three]

/-- C9. With `s = 1/sqrt 2` over the reals: region 3 has area `f3`; the swap of
the coordinates maps region 3 onto region 4, leaves `x*x + y*y` unchanged and
maps the hit set of region 3 onto that of region 4, so region 4 has area `f4`
and the same inclusion probability as region 3; the hit set of region 3 has
area `pi/8 - 1/4`; and the estimator formula `4*(f1 + (f3+f4)*p)` at
`p = area / f3` is exactly `pi`. -/
theorem C9_estimator_exactness :
    (MeasureTheory.volume (region3 Real.sqrt)).toReal = f3 id Real.sqrt ∧
    Set.image Prod.swap (region3 Real.sqrt) = region4 Real.sqrt ∧
    (∀ q : ℝ × ℝ, q.swap.1 * q.swap.1 + q.swap.2 * q.swap.2 = q.1 * q.1 + q.2 * q.2) ∧
    Set.image Prod.swap (inside (region3 Real.sqrt)) = inside (region4 Real.sqrt) ∧
    (MeasureTheory.volume (region4 Real.sqrt)).toReal = f4 id Real.sqrt ∧
    (MeasureTheory.volume (inside (region4 Real.sqrt))).toReal /
        (MeasureTheory.volume (region4 Real.sqrt)).toReal =
      (MeasureTheory.volume (inside (region3 Real.sqrt))).toReal /
        (MeasureTheory.volume (region3 Real.sqrt)).toReal ∧
    (MeasureTheory.volume (inside (region3 Real.sqrt))).toReal = Real.pi / 8 - 1 / 4 ∧
    pie_estimate id Real.sqrt
      ((MeasureTheory.volume (inside (region3 Real.sqrt))).toReal / f3 id Real.sqrt) = Real.pi ∧
    4 * (f1 id Real.sqrt + (f3 id Real.sqrt + f4 id Real.sqrt) *
      ((MeasureTheory.volume (inside (region3 Real.sqrt))).toReal / f3 id Real.sqrt)) = Real.pi := by
  have hs := xyval_pos
  have h1 := xyval_lt_one
  have hf3 : 0 < f3 id Real.sqrt := f3_pos
  have hv3 : (MeasureTheory.volume (region3 Real.sqrt)).toReal = f3 id Real.sqrt := by
    rw [volume_region3, ENNReal.toReal_ofReal hf3.le]
  have hv4 : MeasureTheory.volume (region4 Real.sqrt) =
      MeasureTheory.volume (region3 Real.sqrt) := by
    rw [← swap_region3, volume_image_swap _ measurableSet_region3]
  have hi4 : MeasureTheory.volume (inside (region4 Real.sqrt)) =
      MeasureTheory.volume (inside (region3 Real.sqrt)) := by
    rw [← swap_inside_region3,
      volume_image_swap _ (measurableSet_inside _ measurableSet_region3)]
  have harea : (MeasureTheory.volume (inside (region3 Real.sqrt))).toReal =
      Real.pi / 8 - 1 / 4 := by
    rw [volume_inside_region3, ENNReal.toReal_ofReal pi_eighth_pos]
  have hpi : 4 * (f1 id Real.sqrt + (f3 id Real.sqrt + f4 id Real.sqrt) *
      ((MeasureTheory.volume (inside (region3 Real.sqrt))).toReal / f3 id Real.sqrt)) =
      Real.pi := by
    have hf1 : f1 id Real.sqrt = 1 / 2 := xyval_mul_self
    have hf4 : f4 id Real.sqrt = f3 id Real.sqrt := rfl
    rw [harea, hf1, hf4]
    field_simp
    ring
  refine ⟨hv3, swap_region3, ?_, swap_inside_region3, ?_, ?_, harea, hpi, hpi⟩
  · intro q
    simp only [Prod.fst_swap, Prod.snd_swap]
    ring
  · rw [hv4, hv3]
    rfl
  · rw [hv4, hi4]

/-! ## Binary64 arithmetic -/

/-! ### Rounding to an integer, ties to even -/

theorem floor_le_roundEven (t : ℚ) : ⌊t⌋ ≤ roundEven t := by
  unfold roundEven
  split_ifs <;> omega

theorem roundEven_le_floor_add_one (t : ℚ) : roundEven t ≤ ⌊t⌋ + 1 := by
  unfold roundEven
  split_ifs <;> omega

theorem roundEven_eq_of_near (t : ℚ) (n : ℤ) (h1 : (n : ℚ) - 1 / 2 < t)
    (h2 : t < (n : ℚ) + 1 / 2) : roundEven t = n := by
  unfold roundEven
  by_cases hn : (n : ℚ) ≤ t
  · have hf : ⌊t⌋ = n := Int.floor_eq_iff.mpr ⟨hn, by linarith⟩
    rw [hf, if_pos (by linarith)]
  · have hf : ⌊t⌋ = n - 1 := Int.floor_eq_iff.mpr ⟨by push_cast; linarith, by push_cast; linarith⟩
    rw [hf, if_neg (by push_cast; linarith), if_pos (by push_cast; linarith)]
    ring

theorem roundEven_intCast (n : ℤ) : roundEven (n : ℚ) = n :=
  roundEven_eq_of_near _ n (by linarith) (by linarith)

theorem roundEven_tie_even (n : ℤ) (hn : n % 2 = 0) : roundEven ((n : ℚ) + 1 / 2) = n := by
  have hf : ⌊(n : ℚ) + 1 / 2⌋ = n := Int.floor_eq_iff.mpr ⟨by linarith, by linarith⟩
  unfold roundEven
  rw [hf, if_neg (by norm_num), if_neg (by norm_num), if_pos hn]

theorem roundEven_tie_odd (n : ℤ) (hn : n % 2 = 1) : roundEven ((n : ℚ) + 1 / 2) = n + 1 := by
  have hf : ⌊(n : ℚ) + 1 / 2⌋ = n := Int.floor_eq_iff.mpr ⟨by linarith, by linarith⟩
  unfold roundEven
  rw [hf, if_neg (by norm_num), if_neg (by norm_num), if_neg (by omega)]

theorem roundEven_mono (s t : ℚ) (h : s ≤ t) : roundEven s ≤ roundEven t := by
  have hfl : ⌊s⌋ ≤ ⌊t⌋ := Int.floor_mono h
  rcases hfl.lt_or_eq with hlt | heq
  · have h1 := roundEven_le_floor_add_one s
    have h2 := floor_le_roundEven t
    omega
  · unfold roundEven
    rw [← heq]
    split_ifs <;> first | omega | (exfalso; linarith)

/-! ### Rounding to binary64 -/

theorem ulp64_pos (q : ℚ) : 0 < ulp64 q := by
  unfold ulp64
  positivity

theorem log_of_binade (q : ℚ) (e : ℤ) (h1 : (2 : ℚ) ^ e ≤ q) (h2 : q < (2 : ℚ) ^ (e + 1)) :
    Int.log 2 q = e := by
  have hq : 0 < q := lt_of_lt_of_le (by positivity) h1
  have hle : e ≤ Int.log 2 q := (Int.zpow_le_iff_le_log (by norm_num) hq).mp (by exact_mod_cast h1)
  have hlt : Int.log 2 q < e + 1 :=
    (Int.lt_zpow_iff_log_lt (by norm_num) hq).mp (by exact_mod_cast h2)
  omega

theorem ulp64_of_binade (q : ℚ) (e : ℤ) (he : -1022 ≤ e) (h1 : (2 : ℚ) ^ e ≤ q)
    (h2 : q < (2 : ℚ) ^ (e + 1)) : ulp64 q = 2 ^ (e - 52) := by
  unfold ulp64
  rw [log_of_binade q e h1 h2, max_eq_left he]

theorem rnd64_of_nonneg (q : ℚ) (hq : 0 ≤ q) :
    rnd64 q = (roundEven (q / ulp64 q) : ℚ) * ulp64 q := by
  unfold rnd64
  rw [if_pos hq]

/-- Evaluation of `rnd64` at a positive number whose binade and nearest
multiple of the unit in the last place are known. -/
theorem rnd64_eq_of_near (q : ℚ) (e : ℤ) (m : ℤ) (he : -1022 ≤ e)
    (h1 : (2 : ℚ) ^ e ≤ q) (h2 : q < (2 : ℚ) ^ (e + 1))
    (h3 : ((m : ℚ) - 1 / 2) * 2 ^ (e - 52) < q) (h4 : q < ((m : ℚ) + 1 / 2) * 2 ^ (e - 52)) :
    rnd64 q = (m : ℚ) * 2 ^ (e - 52) := by
  have hq : 0 < q := lt_of_lt_of_le (by positivity) h1
  have hu : (0 : ℚ) < 2 ^ (e - 52) := by positivity
  rw [rnd64_of_nonneg q hq.le, ulp64_of_binade q e he h1 h2,
    roundEven_eq_of_near _ m ((lt_div_iff₀ hu).mpr h3) ((div_lt_iff₀ hu).mpr h4)]

theorem rnd64_zero : rnd64 0 = 0 := by
  rw [rnd64_of_nonneg 0 le_rfl, zero_div]
  have h0 : roundEven 0 = 0 := by exact_mod_cast roundEven_intCast 0
  rw [h0]
  simp

theorem rnd64_nonneg (q : ℚ) (hq : 0 ≤ q) : 0 ≤ rnd64 q := by
  rw [rnd64_of_nonneg q hq]
  have h1 : (0 : ℤ) ≤ roundEven (q / ulp64 q) :=
    le_trans (Int.floor_nonneg.mpr (div_nonneg hq (ulp64_pos q).le)) (floor_le_roundEven _)
  exact mul_nonneg (by exact_mod_cast h1) (ulp64_pos q).le

theorem rnd64_neg (q : ℚ) (hq : q < 0) : rnd64 q = -rnd64 (-q) := by
  have hn : 0 ≤ -q := by linarith
  rw [rnd64_of_nonneg (-q) hn]
  unfold rnd64
  rw [if_neg (by linarith)]

theorem two_pow_53_mul (e : ℤ) : (2 : ℚ) ^ 53 * 2 ^ (e - 52) = 2 ^ (e + 1) := by
  have h : (2 : ℚ) ^ 53 = 2 ^ (53 : ℤ) := by norm_cast
  rw [h, ← zpow_add₀ (by norm_num : (2 : ℚ) ≠ 0)]
  congr 1
  ring

theorem two_pow_52_mul (e : ℤ) : (2 : ℚ) ^ 52 * 2 ^ (e - 52) = 2 ^ e := by
  have h : (2 : ℚ) ^ 52 = 2 ^ (52 : ℤ) := by norm_cast
  rw [h, ← zpow_add₀ (by norm_num : (2 : ℚ) ≠ 0)]
  congr 1
  ring

theorem cast_two_pow_53 : ((2 ^ 53 : ℤ) : ℚ) = 2 ^ 53 := by norm_num

theorem cast_two_pow_52 : ((2 ^ 52 : ℤ) : ℚ) = 2 ^ 52 := by norm_num

theorem rnd64_le_pow (q : ℚ) (hq : 0 < q) :
    rnd64 q ≤ 2 ^ (max (Int.log 2 q) (-1022) + 1) := by
  have hu := ulp64_pos q
  have hlt : q < (2 : ℚ) ^ (max (Int.log 2 q) (-1022) + 1) := by
    have h1 : q < ((2 : ℕ) : ℚ) ^ (Int.log 2 q + 1) := Int.lt_zpow_succ_log_self (by norm_num) q
    have h2 : ((2 : ℕ) : ℚ) ^ (Int.log 2 q + 1) ≤ (2 : ℚ) ^ (max (Int.log 2 q) (-1022) + 1) := by
      push_cast
      exact zpow_le_zpow_right₀ (by norm_num) (by omega)
    exact lt_of_lt_of_le h1 h2
  have hdiv : q / ulp64 q ≤ ((2 ^ 53 : ℤ) : ℚ) := by
    rw [div_le_iff₀ hu]
    unfold ulp64
    rw [cast_two_pow_53, two_pow_53_mul]
    exact hlt.le
  have hr : roundEven (q / ulp64 q) ≤ 2 ^ 53 := by
    have := roundEven_mono _ _ hdiv
    rwa [roundEven_intCast] at this
  rw [rnd64_of_nonneg q hq.le]
  calc (roundEven (q / ulp64 q) : ℚ) * ulp64 q ≤ ((2 ^ 53 : ℤ) : ℚ) * ulp64 q :=
        mul_le_mul_of_nonneg_right (by exact_mod_cast hr) hu.le
    _ = 2 ^ (max (Int.log 2 q) (-1022) + 1) := by
        unfold ulp64
        rw [cast_two_pow_53]
        exact two_pow_53_mul _

theorem pow_le_rnd64 (q : ℚ) (hq : 0 < q) (hlog : -1022 ≤ Int.log 2 q) :
    (2 : ℚ) ^ Int.log 2 q ≤ rnd64 q := by
  have hu := ulp64_pos q
  have hmax : max (Int.log 2 q) (-1022) = Int.log 2 q := max_eq_left hlog
  have hle : (2 : ℚ) ^ Int.log 2 q ≤ q := by
    have := Int.zpow_log_le_self (by norm_num : 1 < 2) hq
    exact_mod_cast this
  have hdiv : ((2 ^ 52 : ℤ) : ℚ) ≤ q / ulp64 q := by
    rw [le_div_iff₀ hu]
    unfold ulp64
    rw [cast_two_pow_52, hmax, two_pow_52_mul]
    exact hle
  have hr : 2 ^ 52 ≤ roundEven (q / ulp64 q) := by
    have := roundEven_mono _ _ hdiv
    rwa [roundEven_intCast] at this
  rw [rnd64_of_nonneg q hq.le]
  calc (2 : ℚ) ^ Int.log 2 q = ((2 ^ 52 : ℤ) : ℚ) * ulp64 q := by
        unfold ulp64
        rw [cast_two_pow_52, hmax, two_pow_52_mul]
    _ ≤ (roundEven (q / ulp64 q) : ℚ) * ulp64 q :=
        mul_le_mul_of_nonneg_right (by exact_mod_cast hr) hu.le

theorem rnd64_mono_pos (a b : ℚ) (ha : 0 < a) (hab : a ≤ b) : rnd64 a ≤ rnd64 b := by
  have hb : 0 < b := lt_of_lt_of_le ha hab
  have hlog : Int.log 2 a ≤ Int.log 2 b := Int.log_mono_right ha hab
  rcases (max_le_max hlog (le_refl (-1022 : ℤ))).lt_or_eq with hlt | heq
  · have hbl : -1022 ≤ Int.log 2 b := by
      by_contra hcon
      have h1 : max (Int.log 2 b) (-1022) = -1022 := max_eq_right (by omega)
      have h2 : -1022 ≤ max (Int.log 2 a) (-1022) := le_max_right _ _
      omega
    have hmaxb : max (Int.log 2 b) (-1022) = Int.log 2 b := max_eq_left hbl
    calc rnd64 a ≤ 2 ^ (max (Int.log 2 a) (-1022) + 1) := rnd64_le_pow a ha
      _ ≤ (2 : ℚ) ^ Int.log 2 b := zpow_le_zpow_right₀ (by norm_num) (by omega)
      _ ≤ rnd64 b := pow_le_rnd64 b hb hbl
  · have hulp : ulp64 a = ulp64 b := by
      unfold ulp64
      rw [heq]
    have hu := ulp64_pos b
    rw [rnd64_of_nonneg a ha.le, rnd64_of_nonneg b hb.le, hulp]
    have hr : roundEven (a / ulp64 b) ≤ roundEven (b / ulp64 b) :=
      roundEven_mono _ _ (div_le_div_of_nonneg_right hab hu.le)
    exact mul_le_mul_of_nonneg_right (by exact_mod_cast hr) hu.le

/-- Rounding to binary64 is monotone. -/
theorem rnd64_mono (a b : ℚ) (hab : a ≤ b) : rnd64 a ≤ rnd64 b := by
  rcases lt_trichotomy a 0 with ha | ha | ha
  · rcases lt_or_le b 0 with hb | hb
    · rw [rnd64_neg a ha, rnd64_neg b hb]
      have := rnd64_mono_pos (-b) (-a) (by linarith) (by linarith)
      linarith
    · have h1 := rnd64_nonneg (-a) (by linarith)
      have h2 := rnd64_nonneg b hb
      rw [rnd64_neg a ha]
      linarith
  · rw [ha, rnd64_zero]
    exact rnd64_nonneg b (by linarith)
  · exact rnd64_mono_pos a b ha hab

/-- Evaluation of `rnd64` away from a tie. -/
theorem rnd64_eval (q : ℚ) (e m : ℤ) (ulp : ℚ) (he : -1022 ≤ e)
    (hulp : ulp = 2 ^ (e - 52)) (h1 : (2 : ℚ) ^ e ≤ q) (h2 : q < (2 : ℚ) ^ (e + 1))
    (h3 : ((m : ℚ) - 1 / 2) * ulp < q) (h4 : q < ((m : ℚ) + 1 / 2) * ulp) :
    rnd64 q = (m : ℚ) * ulp := by
  subst hulp
  exact rnd64_eq_of_near q e m he h1 h2 h3 h4

/-- Evaluation of `rnd64` at a tie: the even neighbour is taken. -/
theorem rnd64_eval_tie (q : ℚ) (e m : ℤ) (ulp : ℚ) (he : -1022 ≤ e)
    (hulp : ulp = 2 ^ (e - 52)) (h1 : (2 : ℚ) ^ e ≤ q) (h2 : q < (2 : ℚ) ^ (e + 1))
    (hq : q = ((m : ℚ) + 1 / 2) * ulp) :
    rnd64 q = ((if m % 2 = 0 then m else m + 1 : ℤ) : ℚ) * ulp := by
  subst hulp
  have hq0 : 0 < q := lt_of_lt_of_le (by positivity) h1
  have hu : (0 : ℚ) < 2 ^ (e - 52) := by positivity
  have hdiv : q / 2 ^ (e - 52) = (m : ℚ) + 1 / 2 := by
    rw [hq, mul_div_assoc, div_self hu.ne', mul_one]
  rw [rnd64_of_nonneg q hq0.le, ulp64_of_binade q e he h1 h2, hdiv]
  split_ifs with hm
  · rw [roundEven_tie_even m hm]
  · rw [roundEven_tie_odd m (by omega)]

theorem sqrt64_two : sqrt64 2 = 6369051672525773 / 2 ^ 52 := by
  have hlog : Int.log 2 (2 : ℚ) = 1 := log_of_binade 2 1 (by norm_num) (by norm_num)
  have hfl : ⌊(2 : ℚ) / (2 ^ ((1 : ℤ) / 2 - 52) * 2 ^ ((1 : ℤ) / 2 - 52))⌋₊ = 2 ^ 105 := by
    have : (2 : ℚ) / (2 ^ ((1 : ℤ) / 2 - 52) * 2 ^ ((1 : ℤ) / 2 - 52)) = ((2 ^ 105 : ℕ) : ℚ) := by
      norm_num
    rw [this, Nat.floor_natCast]
  have hsq : Nat.sqrt (2 ^ 105) = 6369051672525772 := by
    symm
    rw [Nat.eq_sqrt]
    constructor <;> norm_num
  unfold sqrt64
  simp only [hlog, hfl, hsq]
  norm_num

/-! ### Values of the roundings the program performs -/

theorem rnd64_inv_sqrt_two : rnd64 (1 / (6369051672525773 / 2 ^ 52)) = 1592262918131443 / 2 ^ 51 := by
  have h := rnd64_eval (1 / (6369051672525773 / 2 ^ 52)) (-1) 6369051672525772 (1 / 2 ^ 53)
    (by norm_num) (by norm_num) (by norm_num) (by norm_num) (by norm_num) (by norm_num)
  rw [h]
  norm_num

theorem rnd64_one_sub_xyval : rnd64 (1 - 1592262918131443 / 2 ^ 51) = 659536895553805 / 2 ^ 51 := by
  have h := rnd64_eval (1 - 1592262918131443 / 2 ^ 51) (-2) 5276295164430440 (1 / 2 ^ 54)
    (by norm_num) (by norm_num) (by norm_num) (by norm_num) (by norm_num) (by norm_num)
  rw [h]
  norm_num

theorem rnd64_one : rnd64 (1) = 1 := by
  have h := rnd64_eval (1) (0) 4503599627370496 (1 / 2 ^ 52)
    (by norm_num) (by norm_num) (by norm_num) (by norm_num) (by norm_num) (by norm_num)
  rw [h]
  norm_num

theorem rnd64_xyval : rnd64 (1592262918131443 / 2 ^ 51) = 1592262918131443 / 2 ^ 51 := by
  have h := rnd64_eval (1592262918131443 / 2 ^ 51) (-1) 6369051672525772 (1 / 2 ^ 53)
    (by norm_num) (by norm_num) (by norm_num) (by norm_num) (by norm_num) (by norm_num)
  rw [h]
  norm_num

theorem rnd64_xwidth : rnd64 (659536895553805 / 2 ^ 51) = 659536895553805 / 2 ^ 51 := by
  have h := rnd64_eval (659536895553805 / 2 ^ 51) (-2) 5276295164430440 (1 / 2 ^ 54)
    (by norm_num) (by norm_num) (by norm_num) (by norm_num) (by norm_num) (by norm_num)
  rw [h]
  norm_num

theorem rnd64_xyval_mul_umax : rnd64 (1592262918131443 / 2 ^ 51 * (1 - 1 / 2 ^ 53)) = 6369051672525771 / 2 ^ 53 := by
  have h := rnd64_eval (1592262918131443 / 2 ^ 51 * (1 - 1 / 2 ^ 53)) (-1) 6369051672525771 (1 / 2 ^ 53)
    (by norm_num) (by norm_num) (by norm_num) (by norm_num) (by norm_num) (by norm_num)
  rw [h]
  norm_num

theorem rnd64_xwidth_mul_umax : rnd64 (659536895553805 / 2 ^ 51 * (1 - 1 / 2 ^ 53)) = 5276295164430439 / 2 ^ 54 := by
  have h := rnd64_eval (659536895553805 / 2 ^ 51 * (1 - 1 / 2 ^ 53)) (-2) 5276295164430439 (1 / 2 ^ 54)
    (by norm_num) (by norm_num) (by norm_num) (by norm_num) (by norm_num) (by norm_num)
  rw [h]
  norm_num

theorem rnd64_xyval_add_umax : rnd64 (1592262918131443 / 2 ^ 51 + 5276295164430439 / 2 ^ 54) = 1 := by
  have h := rnd64_eval_tie (1592262918131443 / 2 ^ 51 + 5276295164430439 / 2 ^ 54) (-1) 9007199254740991 (1 / 2 ^ 53)
    (by norm_num) (by norm_num) (by norm_num) (by norm_num) (by norm_num)
  rw [h]
  norm_num

theorem rnd64_xyval_sq : rnd64 (1592262918131443 / 2 ^ 51 * (1592262918131443 / 2 ^ 51)) = 4503599627370495 / 2 ^ 53 := by
  have h := rnd64_eval (1592262918131443 / 2 ^ 51 * (1592262918131443 / 2 ^ 51)) (-2) 9007199254740990 (1 / 2 ^ 54)
    (by norm_num) (by norm_num) (by norm_num) (by norm_num) (by norm_num) (by norm_num)
  rw [h]
  norm_num

theorem rnd64_xwidth_mul_xyval : rnd64 (659536895553805 / 2 ^ 51 * (1592262918131443 / 2 ^ 51)) = 7461808180621107 / 2 ^ 55 := by
  have h := rnd64_eval (659536895553805 / 2 ^ 51 * (1592262918131443 / 2 ^ 51)) (-3) 7461808180621107 (1 / 2 ^ 55)
    (by norm_num) (by norm_num) (by norm_num) (by norm_num) (by norm_num) (by norm_num)
  rw [h]
  norm_num

theorem rnd64_f3_add_f4 : rnd64 (7461808180621107 / 2 ^ 55 + 7461808180621107 / 2 ^ 55) = 7461808180621107 / 2 ^ 54 := by
  have h := rnd64_eval (7461808180621107 / 2 ^ 55 + 7461808180621107 / 2 ^ 55) (-2) 7461808180621107 (1 / 2 ^ 54)
    (by norm_num) (by norm_num) (by norm_num) (by norm_num) (by norm_num) (by norm_num)
  rw [h]
  norm_num

theorem rnd64_f1 : rnd64 (4503599627370495 / 2 ^ 53) = 4503599627370495 / 2 ^ 53 := by
  have h := rnd64_eval (4503599627370495 / 2 ^ 53) (-2) 9007199254740990 (1 / 2 ^ 54)
    (by norm_num) (by norm_num) (by norm_num) (by norm_num) (by norm_num) (by norm_num)
  rw [h]
  norm_num

theorem rnd64_four_f1 : rnd64 (4 * (4503599627370495 / 2 ^ 53)) = 4503599627370495 / 2 ^ 51 := by
  have h := rnd64_eval (4 * (4503599627370495 / 2 ^ 53)) (0) 9007199254740990 (1 / 2 ^ 52)
    (by norm_num) (by norm_num) (by norm_num) (by norm_num) (by norm_num) (by norm_num)
  rw [h]
  norm_num

theorem rnd64_f34 : rnd64 (7461808180621107 / 2 ^ 54) = 7461808180621107 / 2 ^ 54 := by
  have h := rnd64_eval (7461808180621107 / 2 ^ 54) (-2) 7461808180621107 (1 / 2 ^ 54)
    (by norm_num) (by norm_num) (by norm_num) (by norm_num) (by norm_num) (by norm_num)
  rw [h]
  norm_num

theorem rnd64_f1_add_f34 : rnd64 (4503599627370495 / 2 ^ 53 + 7461808180621107 / 2 ^ 54) = 1029312964710131 / 2 ^ 50 := by
  have h := rnd64_eval_tie (4503599627370495 / 2 ^ 53 + 7461808180621107 / 2 ^ 54) (-1) 8234503717681048 (1 / 2 ^ 53)
    (by norm_num) (by norm_num) (by norm_num) (by norm_num) (by norm_num)
  rw [h]
  norm_num

theorem rnd64_four_fest_one : rnd64 (4 * (1029312964710131 / 2 ^ 50)) = 1029312964710131 / 2 ^ 48 := by
  have h := rnd64_eval (4 * (1029312964710131 / 2 ^ 50)) (1) 8234503717681048 (1 / 2 ^ 51)
    (by norm_num) (by norm_num) (by norm_num) (by norm_num) (by norm_num) (by norm_num)
  rw [h]
  norm_num

theorem rnd64_ntrials : rnd64 (10000000) = 10000000 := by
  have h := rnd64_eval (10000000) (23) 5368709120000000 (1 / 2 ^ 29)
    (by norm_num) (by norm_num) (by norm_num) (by norm_num) (by norm_num) (by norm_num)
  rw [h]
  norm_num

theorem rnd64_ntrials_pred : rnd64 (9999999) = 9999999 := by
  have h := rnd64_eval (9999999) (23) 5368708583129088 (1 / 2 ^ 29)
    (by norm_num) (by norm_num) (by norm_num) (by norm_num) (by norm_num) (by norm_num)
  rw [h]
  norm_num

theorem rnd64_p_max_three : rnd64 (9999999 / 10000000) = 9007198354021067 / 2 ^ 53 := by
  have h := rnd64_eval (9999999 / 10000000) (-1) 9007198354021067 (1 / 2 ^ 53)
    (by norm_num) (by norm_num) (by norm_num) (by norm_num) (by norm_num) (by norm_num)
  rw [h]
  norm_num

theorem rnd64_ymax_sq : rnd64 (6369051672525771 / 2 ^ 53 * (6369051672525771 / 2 ^ 53)) = 2251799813685247 / 2 ^ 52 := by
  have h := rnd64_eval (6369051672525771 / 2 ^ 53 * (6369051672525771 / 2 ^ 53)) (-2) 9007199254740988 (1 / 2 ^ 54)
    (by norm_num) (by norm_num) (by norm_num) (by norm_num) (by norm_num) (by norm_num)
  rw [h]
  norm_num

theorem rnd64_rsq_umax : rnd64 (1 + 2251799813685247 / 2 ^ 52) = 6755399441055743 / 2 ^ 52 := by
  have h := rnd64_eval (1 + 2251799813685247 / 2 ^ 52) (0) 6755399441055743 (1 / 2 ^ 52)
    (by norm_num) (by norm_num) (by norm_num) (by norm_num) (by norm_num) (by norm_num)
  rw [h]
  norm_num

theorem rnd64_umax : rnd64 (1 - 1 / 2 ^ 53) = 9007199254740991 / 2 ^ 53 := by
  have h := rnd64_eval (1 - 1 / 2 ^ 53) (-1) 9007199254740991 (1 / 2 ^ 53)
    (by norm_num) (by norm_num) (by norm_num) (by norm_num) (by norm_num) (by norm_num)
  rw [h]
  norm_num

theorem rnd64_half : rnd64 (1 / 2) = 1 / 2 ^ 1 := by
  have h := rnd64_eval (1 / 2) (-1) 4503599627370496 (1 / 2 ^ 53)
    (by norm_num) (by norm_num) (by norm_num) (by norm_num) (by norm_num) (by norm_num)
  rw [h]
  norm_num

/-! ### The program's constants in binary64 -/

theorem xyval64 : xyval rnd64 sqrt64 = 1592262918131443 / 2 ^ 51 := by
  unfold xyval
  rw [sqrt64_two]
  exact rnd64_inv_sqrt_two

theorem xwidth64 : xwidth rnd64 sqrt64 = 659536895553805 / 2 ^ 51 := by
  unfold xwidth
  rw [xyval64]
  exact rnd64_one_sub_xyval

theorem f1_64 : f1 rnd64 sqrt64 = 4503599627370495 / 2 ^ 53 := by
  unfold f1
  rw [xyval64]
  exact rnd64_xyval_sq

theorem f3_64 : f3 rnd64 sqrt64 = 7461808180621107 / 2 ^ 55 := by
  unfold f3
  rw [xyval64, rnd64_one_sub_xyval]
  exact rnd64_xwidth_mul_xyval

theorem pie_estimate64_zero : pie_estimate rnd64 sqrt64 0 = 4503599627370495 / 2 ^ 51 := by
  unfold pie_estimate fest f4
  rw [f1_64, f3_64, rnd64_f3_add_f4, mul_zero, rnd64_zero, add_zero, rnd64_f1]
  exact rnd64_four_f1

theorem pie_estimate64_one : pie_estimate rnd64 sqrt64 1 = 1029312964710131 / 2 ^ 48 := by
  unfold pie_estimate fest f4
  rw [f1_64, f3_64, rnd64_f3_add_f4, mul_one, rnd64_f34, rnd64_f1_add_f34]
  exact rnd64_four_fest_one

theorem pie_estimate64_mono (a b : ℚ) (hab : a ≤ b) :
    pie_estimate rnd64 sqrt64 a ≤ pie_estimate rnd64 sqrt64 b := by
  unfold pie_estimate fest f4
  rw [f1_64, f3_64, rnd64_f3_add_f4]
  apply rnd64_mono
  apply mul_le_mul_of_nonneg_left _ (by norm_num)
  apply rnd64_mono
  apply add_le_add_left
  apply rnd64_mono
  exact mul_le_mul_of_nonneg_left hab (by norm_num)

/-- A binary64 number below `1` is at most `1 - 2 ^ (-53)`. -/
theorem double_lt_one (u : ℚ) (hd : rnd64 u = u) (h1 : u < 1) : u ≤ 1 - 1 / 2 ^ 53 := by
  by_contra hcon
  push_neg at hcon
  have hhalf : (2 : ℚ) ^ (-1 : ℤ) = 1 / 2 := by norm_num
  have hone : (2 : ℚ) ^ ((-1 : ℤ) + 1) = 1 := by norm_num
  have hlo : (2 : ℚ) ^ (-1 : ℤ) ≤ u := by
    rw [hhalf]
    have : (1 / 2 : ℚ) ≤ 1 - 1 / 2 ^ 53 := by norm_num
    linarith
  have hhi : u < (2 : ℚ) ^ ((-1 : ℤ) + 1) := by
    rw [hone]
    exact h1
  have hu0 : 0 ≤ u := le_trans (by positivity) hlo
  have hulp : ulp64 u = 1 / 2 ^ 53 := by
    rw [ulp64_of_binade u (-1) (by norm_num) hlo hhi]
    norm_num
  rw [rnd64_of_nonneg u hu0, hulp] at hd
  generalize roundEven (u / (1 / 2 ^ 53)) = k at hd
  have h3 : ((2 ^ 53 - 1 : ℤ) : ℚ) < (k : ℚ) := by
    push_cast
    linarith
  have h4 : (k : ℚ) < ((2 ^ 53 : ℤ) : ℚ) := by
    push_cast
    linarith
  have h3' : 2 ^ 53 - 1 < k := by exact_mod_cast h3
  have h4' : k < 2 ^ 53 := by exact_mod_cast h4
  omega

theorem x64_ge (u1 : ℚ) (h1 : 0 ≤ u1) : xyval rnd64 sqrt64 ≤ x rnd64 sqrt64 u1 := by
  unfold x
  rw [xwidth64, xyval64]
  have h0 : 0 ≤ rnd64 (659536895553805 / 2 ^ 51 * u1) :=
    rnd64_nonneg _ (mul_nonneg (by norm_num) h1)
  calc (1592262918131443 / 2 ^ 51 : ℚ) = rnd64 (1592262918131443 / 2 ^ 51) := rnd64_xyval.symm
    _ ≤ rnd64 (1592262918131443 / 2 ^ 51 + rnd64 (659536895553805 / 2 ^ 51 * u1)) :=
        rnd64_mono _ _ (by linarith)

theorem x64_le (u1 : ℚ) (h1 : u1 ≤ 1) : x rnd64 sqrt64 u1 ≤ 1 := by
  unfold x
  rw [xwidth64, xyval64]
  have hw : rnd64 (659536895553805 / 2 ^ 51 * u1) ≤ 659536895553805 / 2 ^ 51 := by
    calc rnd64 (659536895553805 / 2 ^ 51 * u1) ≤ rnd64 (659536895553805 / 2 ^ 51) :=
          rnd64_mono _ _ (by nlinarith)
      _ = 659536895553805 / 2 ^ 51 := rnd64_xwidth
  calc rnd64 (1592262918131443 / 2 ^ 51 + rnd64 (659536895553805 / 2 ^ 51 * u1))
      ≤ rnd64 1 := rnd64_mono _ _ (by linarith)
    _ = 1 := rnd64_one

theorem y64_nonneg (u2 : ℚ) (h2 : 0 ≤ u2) : 0 ≤ y rnd64 sqrt64 u2 := by
  unfold y
  rw [xyval64]
  exact rnd64_nonneg _ (mul_nonneg (by norm_num) h2)

theorem y64_lt (u2 : ℚ) (hd : rnd64 u2 = u2) (h2 : u2 < 1) :
    y rnd64 sqrt64 u2 < xyval rnd64 sqrt64 := by
  have hmax := double_lt_one u2 hd h2
  unfold y
  rw [xyval64]
  calc rnd64 (1592262918131443 / 2 ^ 51 * u2)
      ≤ rnd64 (1592262918131443 / 2 ^ 51 * (1 - 1 / 2 ^ 53)) :=
        rnd64_mono _ _ (mul_le_mul_of_nonneg_left hmax (by norm_num))
    _ = 6369051672525771 / 2 ^ 53 := rnd64_xyval_mul_umax
    _ < 1592262918131443 / 2 ^ 51 := by norm_num

theorem x64_umax : x rnd64 sqrt64 (1 - 1 / 2 ^ 53) = 1 := by
  unfold x
  rw [xwidth64, xyval64, rnd64_xwidth_mul_umax]
  exact rnd64_xyval_add_umax

theorem y64_umax : y rnd64 sqrt64 (1 - 1 / 2 ^ 53) = 6369051672525771 / 2 ^ 53 := by
  unfold y
  rw [xyval64]
  exact rnd64_xyval_mul_umax

theorem rsq64_umax :
    rsq rnd64 sqrt64 (1 - 1 / 2 ^ 53) (1 - 1 / 2 ^ 53) = 6755399441055743 / 2 ^ 52 := by
  unfold rsq
  rw [x64_umax, y64_umax, mul_one, rnd64_one, rnd64_ymax_sq]
  exact rnd64_rsq_umax

theorem rsq64_zero : rsq rnd64 sqrt64 0 0 = 4503599627370495 / 2 ^ 53 := by
  unfold rsq x y
  rw [xwidth64, xyval64, mul_zero, mul_zero, rnd64_zero, add_zero, rnd64_xyval, mul_zero,
    rnd64_zero, add_zero, rnd64_xyval_sq]
  exact rnd64_f1

/-! ### Constant streams -/

theorem hitCount_const_miss {R : Type} [LinearOrderedField R] (rnd sqrt : R → R) (v : R)
    (h : ¬ rsq rnd sqrt v v ≤ 1) (n : Nat) : hitCount rnd sqrt (fun _ => v) n = 0 := by
  unfold hitCount
  rw [List.countP_eq_zero]
  intro k _
  simpa using h

theorem hitCount_const_hit {R : Type} [LinearOrderedField R] (rnd sqrt : R → R) (v : R)
    (h : rsq rnd sqrt v v ≤ 1) (n : Nat) : hitCount rnd sqrt (fun _ => v) n = n := by
  unfold hitCount
  rw [List.countP_eq_length.mpr, List.length_range]
  intro k _
  simpa using h

theorem parallelRegion_const_miss {R : Type} [LinearOrderedField R] (rnd sqrt : R → R)
    (v : R) (h : ¬ rsq rnd sqrt v v ≤ 1) (ntrials seed W : Nat) (order : List Nat)
    (hN : ntrials < ULONG_MOD) (hp : order.Perm (List.range W)) :
    parallelRegion rnd sqrt (fun _ _ => v) ntrials seed W order = 0 := by
  rw [parallelRegion_eq_sum rnd sqrt _ ntrials seed W order hN hp]
  apply Finset.sum_eq_zero
  intro i _
  rw [task_eq rnd sqrt _ ntrials seed W i (lt_of_le_of_lt (Nat.div_le_self _ _) hN)]
  exact hitCount_const_miss rnd sqrt v h _

theorem parallelRegion_const_hit {R : Type} [LinearOrderedField R] (rnd sqrt : R → R)
    (v : R) (h : rsq rnd sqrt v v ≤ 1) (ntrials seed W : Nat) (order : List Nat)
    (hN : ntrials < ULONG_MOD) (hp : order.Perm (List.range W)) :
    parallelRegion rnd sqrt (fun _ _ => v) ntrials seed W order = W * (ntrials / W) := by
  rw [parallelRegion_eq_sum rnd sqrt _ ntrials seed W order hN hp]
  have hterm : ∀ i ∈ Finset.range W,
      (task rnd sqrt (fun _ _ => v) ntrials seed W i).nhits = ntrials / W := by
    intro i _
    rw [task_eq rnd sqrt _ ntrials seed W i (lt_of_le_of_lt (Nat.div_le_self _ _) hN)]
    exact hitCount_const_hit rnd sqrt v h _
  rw [Finset.sum_congr rfl hterm, Finset.sum_const, Finset.card_range, smul_eq_mul]

/-! ### Region exclusivity in binary64 -/

/-- C3, the claim as stated, fails on the program: `u1 = 1 - 2^(-53)` is a
binary64 number in `[0,1)`, and for it line 105 gives `x = 1.0`, which is not
below `1`. -/
theorem C3_counterexample :
    (rnd64 (1 - 1 / 2 ^ 53) = 1 - 1 / 2 ^ 53 ∧ (0 : ℚ) ≤ 1 - 1 / 2 ^ 53 ∧
      (1 - 1 / 2 ^ 53 : ℚ) < 1) ∧
    x rnd64 sqrt64 (1 - 1 / 2 ^ 53) = 1 ∧
    ¬ (x rnd64 sqrt64 (1 - 1 / 2 ^ 53) < 1) := by
  refine ⟨⟨?_, by norm_num, by norm_num⟩, x64_umax, ?_⟩
  · rw [rnd64_umax]
    norm_num
  · rw [x64_umax]
    norm_num

/-- C3, amended.  In binary64, with `s` the program's `xyval`, binary64
variates `u1, u2` in `[0,1)` give a point with `s ≤ x ≤ 1` and `0 ≤ y < s`; so
the point is neither in region 1 (`x < s` and `y < s`) nor in region 2
(`x ≥ s` and `y ≥ s`). -/
theorem C3_region_exclusivity_binary64 (u1 u2 : ℚ)
    (_hd1 : rnd64 u1 = u1) (hd2 : rnd64 u2 = u2)
    (h1 : 0 ≤ u1) (h1' : u1 < 1) (h2 : 0 ≤ u2) (h2' : u2 < 1) :
    (xyval rnd64 sqrt64 ≤ x rnd64 sqrt64 u1 ∧ x rnd64 sqrt64 u1 ≤ 1) ∧
    (0 ≤ y rnd64 sqrt64 u2 ∧ y rnd64 sqrt64 u2 < xyval rnd64 sqrt64) ∧
    ¬ (x rnd64 sqrt64 u1 < xyval rnd64 sqrt64 ∧ y rnd64 sqrt64 u2 < xyval rnd64 sqrt64) ∧
    ¬ (x rnd64 sqrt64 u1 ≥ xyval rnd64 sqrt64 ∧ y rnd64 sqrt64 u2 ≥ xyval rnd64 sqrt64) := by
  have hx0 := x64_ge u1 h1
  have hx1 := x64_le u1 h1'.le
  have hy0 := y64_nonneg u2 h2
  have hy1 := y64_lt u2 hd2 h2'
  refine ⟨⟨hx0, hx1⟩, ⟨hy0, hy1⟩, ?_, ?_⟩
  · rintro ⟨hlt, _⟩
    exact absurd hlt (not_lt.mpr hx0)
  · rintro ⟨_, hge⟩
    exact absurd hy1 (not_lt.mpr hge)

/-! ### Range of the estimate in binary64 -/

theorem NTRIALS_cast : ((NTRIALS : ℕ) : ℚ) = 10000000 := by norm_num [NTRIALS]

theorem p64_mono (a b : Nat) (hab : a ≤ b) : p rnd64 NTRIALS a ≤ p rnd64 NTRIALS b := by
  unfold p
  rw [NTRIALS_cast, rnd64_ntrials]
  apply rnd64_mono
  apply div_le_div_of_nonneg_right _ (by norm_num)
  exact rnd64_mono _ _ (by exact_mod_cast hab)

theorem p64_zero : p rnd64 NTRIALS 0 = 0 := by
  unfold p
  rw [Nat.cast_zero, rnd64_zero, zero_div, rnd64_zero]

theorem p64_ntrials : p rnd64 NTRIALS NTRIALS = 1 := by
  unfold p
  rw [NTRIALS_cast, rnd64_ntrials]
  norm_num
  exact rnd64_one

theorem p64_pred : p rnd64 NTRIALS 9999999 = 9007198354021067 / 2 ^ 53 := by
  unfold p
  rw [NTRIALS_cast, rnd64_ntrials]
  norm_num
  have h := rnd64_ntrials_pred
  have h2 := rnd64_p_max_three
  norm_num at h h2
  rw [h, h2]

/-- C10, the claim as stated, fails on the program in two places.  With one
thread and the stream that always returns `1 - 2^(-53)` no trial is a hit, and
the estimate is `4*f1 = 2 - 2^(-51)`, below `2`.  With three threads and the
all-zero stream every trial is a hit, `nhits = 9999999`, and the computed `p`
is above the exact quotient `3*(NTRIALS/3)/NTRIALS`. -/
theorem C10_counterexample :
    ((1 ≤ 1 ∧ [0].Perm (List.range 1)) ∧
      (main rnd64 sqrt64 (fun _ _ => 1 - 1 / 2 ^ 53) 1 1 [0]).nhits = 0 ∧
      (main rnd64 sqrt64 (fun _ _ => 1 - 1 / 2 ^ 53) 1 1 [0]).pie_estimate =
        2 - 1 / 2 ^ 51 ∧
      ¬ (2 ≤ (main rnd64 sqrt64 (fun _ _ => 1 - 1 / 2 ^ 53) 1 1 [0]).pie_estimate)) ∧
    ((1 ≤ 3 ∧ [0, 1, 2].Perm (List.range 3)) ∧
      (main rnd64 sqrt64 (fun _ _ => 0) 1 3 [0, 1, 2]).nhits = 9999999 ∧
      ¬ ((main rnd64 sqrt64 (fun _ _ => 0) 1 3 [0, 1, 2]).p ≤
          ((3 * (NTRIALS / 3) : ℕ) : ℚ) / ((NTRIALS : ℕ) : ℚ))) := by
  have hmiss : ¬ rsq rnd64 sqrt64 (1 - 1 / 2 ^ 53) (1 - 1 / 2 ^ 53) ≤ 1 := by
    rw [rsq64_umax]
    norm_num
  have hhit : rsq rnd64 sqrt64 0 0 ≤ 1 := by
    rw [rsq64_zero]
    norm_num
  have hH0 : (main rnd64 sqrt64 (fun _ _ => 1 - 1 / 2 ^ 53) 1 1 [0]).nhits = 0 :=
    parallelRegion_const_miss rnd64 sqrt64 _ hmiss NTRIALS 1 1 [0] NTRIALS_lt (by decide)
  have hH3 : (main rnd64 sqrt64 (fun _ _ => 0) 1 3 [0, 1, 2]).nhits = 9999999 := by
    have h := parallelRegion_const_hit rnd64 sqrt64 0 hhit NTRIALS 1 3 [0, 1, 2] NTRIALS_lt
      (by decide)
    have h3 : 3 * (NTRIALS / 3) = 9999999 := by norm_num [NTRIALS]
    rw [h3] at h
    exact h
  have hest : (main rnd64 sqrt64 (fun _ _ => 1 - 1 / 2 ^ 53) 1 1 [0]).pie_estimate =
      2 - 1 / 2 ^ 51 := by
    have hdef : (main rnd64 sqrt64 (fun _ _ => 1 - 1 / 2 ^ 53) 1 1 [0]).pie_estimate =
        pie_estimate rnd64 sqrt64 (p rnd64 NTRIALS
          (main rnd64 sqrt64 (fun _ _ => 1 - 1 / 2 ^ 53) 1 1 [0]).nhits) := rfl
    rw [hdef, hH0, p64_zero, pie_estimate64_zero]
    norm_num
  have hp3 : (main rnd64 sqrt64 (fun _ _ => 0) 1 3 [0, 1, 2]).p =
      9007198354021067 / 2 ^ 53 := by
    have hdef : (main rnd64 sqrt64 (fun _ _ => 0) 1 3 [0, 1, 2]).p =
        p rnd64 NTRIALS (main rnd64 sqrt64 (fun _ _ => 0) 1 3 [0, 1, 2]).nhits := rfl
    rw [hdef, hH3, p64_pred]
  refine ⟨⟨⟨by decide, by decide⟩, hH0, hest, ?_⟩, ⟨by decide, by decide⟩, hH3, ?_⟩
  · rw [hest]
    norm_num
  · rw [hp3]
    norm_num [NTRIALS]

/-- C10, amended.  In binary64, for every team size `W ≥ 1`, stream and order
of the reduction: the `p` the program computes satisfies `0 ≤ p ≤ b ≤ 1`,
where `b` is the program's quotient for the count `W*(NTRIALS/W)`, and `p = 1`
forces `W` to divide `NTRIALS`; the radicand `NTRIALS*p*(1-p)` is not
negative; and the estimate of pi lies between `4*f1` and the program's
estimate for `p = 1`, where `4*f1 = 2 - 2^(-51)` and the estimate for `p = 1`
is `0x1.d413cccfe7798p+1`, which is at most `4*sqrt 2 - 2`. -/
theorem C10_estimator_range_binary64 (gen : Nat → Nat → ℚ) (seed W : Nat)
    (order : List Nat) (hW : 1 ≤ W) (hp : order.Perm (List.range W)) :
    0 ≤ (main rnd64 sqrt64 gen seed W order).p ∧
    (main rnd64 sqrt64 gen seed W order).p ≤ p rnd64 NTRIALS (W * (NTRIALS / W)) ∧
    p rnd64 NTRIALS (W * (NTRIALS / W)) ≤ 1 ∧
    ((main rnd64 sqrt64 gen seed W order).p = 1 → W ∣ NTRIALS) ∧
    0 ≤ varn rnd64 NTRIALS (main rnd64 sqrt64 gen seed W order).p ∧
    4 * f1 rnd64 sqrt64 ≤ (main rnd64 sqrt64 gen seed W order).pie_estimate ∧
    (main rnd64 sqrt64 gen seed W order).pie_estimate ≤ pie_estimate rnd64 sqrt64 1 ∧
    4 * f1 rnd64 sqrt64 = 2 - 1 / 2 ^ 51 ∧
    pie_estimate rnd64 sqrt64 1 = 1029312964710131 / 2 ^ 48 ∧
    ((pie_estimate rnd64 sqrt64 1 : ℚ) : ℝ) ≤ 4 * Real.sqrt 2 - 2 := by
  have hW0 : 0 < W := hW
  have hH : parallelRegion rnd64 sqrt64 gen NTRIALS seed W order ≤ W * (NTRIALS / W) :=
    parallelRegion_le rnd64 sqrt64 gen NTRIALS seed W order NTRIALS_lt hp
  have hWN : W * (NTRIALS / W) ≤ NTRIALS := Nat.mul_div_le _ _
  have hpdef : (main rnd64 sqrt64 gen seed W order).p =
      p rnd64 NTRIALS (parallelRegion rnd64 sqrt64 gen NTRIALS seed W order) := rfl
  have hest : (main rnd64 sqrt64 gen seed W order).pie_estimate =
      pie_estimate rnd64 sqrt64 (main rnd64 sqrt64 gen seed W order).p := rfl
  have hp0 : 0 ≤ (main rnd64 sqrt64 gen seed W order).p := by
    rw [hpdef, ← p64_zero]
    exact p64_mono _ _ (Nat.zero_le _)
  have hpb : (main rnd64 sqrt64 gen seed W order).p ≤ p rnd64 NTRIALS (W * (NTRIALS / W)) := by
    rw [hpdef]
    exact p64_mono _ _ hH
  have hb1 : p rnd64 NTRIALS (W * (NTRIALS / W)) ≤ 1 := by
    rw [← p64_ntrials]
    exact p64_mono _ _ hWN
  have hp1 : (main rnd64 sqrt64 gen seed W order).p ≤ 1 := hpb.trans hb1
  have hlo : 4 * f1 rnd64 sqrt64 = pie_estimate rnd64 sqrt64 0 := by
    rw [f1_64, pie_estimate64_zero]
    norm_num
  refine ⟨hp0, hpb, hb1, ?_, ?_, ?_, ?_, ?_, pie_estimate64_one, ?_⟩
  · intro h1
    by_contra hnd
    have hne : W * (NTRIALS / W) ≠ NTRIALS := fun heq => hnd ⟨NTRIALS / W, heq.symm⟩
    have hle : parallelRegion rnd64 sqrt64 gen NTRIALS seed W order ≤ 9999999 := by
      have hN : NTRIALS = 10000000 := by norm_num [NTRIALS]
      omega
    have hlt : (main rnd64 sqrt64 gen seed W order).p ≤ 9007198354021067 / 2 ^ 53 := by
      rw [hpdef, ← p64_pred]
      exact p64_mono _ _ hle
    rw [h1] at hlt
    norm_num at hlt
  · unfold varn
    apply rnd64_nonneg
    apply mul_nonneg
    · apply rnd64_nonneg
      exact mul_nonneg (rnd64_nonneg _ (Nat.cast_nonneg _)) hp0
    · apply rnd64_nonneg
      linarith
  · rw [hlo, hest]
    exact pie_estimate64_mono _ _ hp0
  · rw [hest]
    exact pie_estimate64_mono _ _ hp1
  · rw [f1_64]
    norm_num
  · rw [pie_estimate64_one]
    have hsq : ((1029312964710131 / 2 ^ 48 + 2) / 4 : ℝ) ≤ Real.sqrt 2 := by
      apply Real.le_sqrt_of_sq_le
      norm_num
    push_cast
    linarith

/-! ## The theorems at concrete inputs -/

/-- C1 in binary64 at base seed `1`, four threads, the all-zero stream and the
order `2, 0, 3, 1` of the additions. -/
theorem C1_reduction_witness :
    1 ≤ 4 ∧ [2, 0, 3, 1].Perm (List.range 4) ∧
    (NTRIALS = 10000000 ∧
     (main rnd64 sqrt64 (fun _ _ => 0) 1 4 [2, 0, 3, 1]).nhits =
       ∑ i ∈ Finset.range 4, (task rnd64 sqrt64 (fun _ _ => 0) NTRIALS 1 4 i).nhits ∧
     (main rnd64 sqrt64 (fun _ _ => 0) 1 4 [2, 0, 3, 1]).nhits ≤ 4 * (NTRIALS / 4) ∧
     4 * (NTRIALS / 4) ≤ NTRIALS ∧
     NTRIALS - 4 * (NTRIALS / 4) ≤ 4 - 1) :=
  ⟨by decide, by decide,
    C1_reduction rnd64 sqrt64 (fun _ _ => 0) 1 4 [2, 0, 3, 1] (by decide) (by decide)⟩

/-- C2 in exact arithmetic at the default seed `654321`, one thread and the
all-zero stream. -/
theorem C2_sampler_witness :
    1 ≤ 1 ∧
    ((task id Real.sqrt (fun _ _ => 0) NTRIALS 654321 1 0).trials = NTRIALS / 1 ∧
     (task id Real.sqrt (fun _ _ => 0) NTRIALS 654321 1 0).drawn = 2 * (NTRIALS / 1) ∧
     (task id Real.sqrt (fun _ _ => 0) NTRIALS 654321 1 0).nhits =
       ((List.range (NTRIALS / 1)).filter (fun k =>
         decide (id
             (id (x id Real.sqrt ((fun _ _ => (0 : ℝ)) ((654321 + 0) % ULONG_MOD) (2 * k)) *
                  x id Real.sqrt ((fun _ _ => (0 : ℝ)) ((654321 + 0) % ULONG_MOD) (2 * k))) +
              id (y id Real.sqrt ((fun _ _ => (0 : ℝ)) ((654321 + 0) % ULONG_MOD) (2 * k + 1)) *
                  y id Real.sqrt ((fun _ _ => (0 : ℝ)) ((654321 + 0) % ULONG_MOD) (2 * k + 1))))
           ≤ 1))).length ∧
     0 ≤ (task id Real.sqrt (fun _ _ => 0) NTRIALS 654321 1 0).nhits ∧
     (task id Real.sqrt (fun _ _ => 0) NTRIALS 654321 1 0).nhits ≤ NTRIALS / 1 ∧
     (∀ (u : Nat → ℝ) (st : Loop), st.nhits + 1 < ULONG_MOD →
       rsq id Real.sqrt (u st.drawn) (u (st.drawn + 1)) = 1 →
       (body id Real.sqrt u st).nhits = st.nhits + 1)) :=
  ⟨by decide, C2_sampler id Real.sqrt (fun _ _ => 0) 654321 1 0 (by decide)⟩

/-- C3, amended, at the binary64 variates `u1 = 1/2`, `u2 = 1/2`. -/
theorem C3_region_exclusivity_binary64_witness :
    (rnd64 (1 / 2) = 1 / 2 ∧ (0 : ℚ) ≤ 1 / 2 ∧ (1 / 2 : ℚ) < 1) ∧
    ((xyval rnd64 sqrt64 ≤ x rnd64 sqrt64 (1 / 2) ∧ x rnd64 sqrt64 (1 / 2) ≤ 1) ∧
     (0 ≤ y rnd64 sqrt64 (1 / 2) ∧ y rnd64 sqrt64 (1 / 2) < xyval rnd64 sqrt64) ∧
     ¬ (x rnd64 sqrt64 (1 / 2) < xyval rnd64 sqrt64 ∧
        y rnd64 sqrt64 (1 / 2) < xyval rnd64 sqrt64) ∧
     ¬ (x rnd64 sqrt64 (1 / 2) ≥ xyval rnd64 sqrt64 ∧
        y rnd64 sqrt64 (1 / 2) ≥ xyval rnd64 sqrt64)) :=
  ⟨⟨rnd64_half, by norm_num, by norm_num⟩,
    C3_region_exclusivity_binary64 (1 / 2) (1 / 2) rnd64_half rnd64_half
      (by norm_num) (by norm_num) (by norm_num) (by norm_num)⟩

/-- C4 at the point `(1/2, 1/2)` of region 1 and the point `(9/10, 9/10)` of
region 2. -/
theorem C4_geometric_decomposition_witness :
    ((1 / 2 : ℝ) < xyval id Real.sqrt ∧ xyval id Real.sqrt ≤ 9 / 10) ∧
    ((1 / 2 : ℝ) * (1 / 2) + (1 / 2) * (1 / 2) ≤ 1 ∧
     (9 / 10 : ℝ) * (9 / 10) + (9 / 10) * (9 / 10) ≥ 1) :=
  have hlo : (1 / 2 : ℝ) < xyval id Real.sqrt := by
    nlinarith [xyval_pos, xyval_mul_self]
  have hhi : xyval id Real.sqrt ≤ 9 / 10 := by
    nlinarith [xyval_pos, xyval_mul_self]
  ⟨⟨hlo, hhi⟩,
    C4_geometric_decomposition (1 / 2) (1 / 2) (9 / 10) (9 / 10)
      (by norm_num) hlo (by norm_num) hlo hhi (by norm_num) hhi (by norm_num)⟩

/-- C6 in binary64 at base seed `1`, four threads, threads `0` and `1`. -/
theorem C6_seeds_witness :
    (4 ≤ 2 ^ 32 ∧ 0 < 4 ∧ 1 < 4 ∧ 0 ≠ 1) ∧
    ((task rnd64 sqrt64 (fun _ _ => 0) NTRIALS 1 4 0).myseed = (1 + 0) % 2 ^ 64 ∧
     (task rnd64 sqrt64 (fun _ _ => 0) NTRIALS 1 4 0).myseed ≠
       (task rnd64 sqrt64 (fun _ _ => 0) NTRIALS 1 4 1).myseed ∧
     (List.range 4).map (fun t => (task rnd64 sqrt64 (fun _ _ => 0) NTRIALS 1 4 t).myseed) =
       [1, 2, 3, 4]) :=
  ⟨⟨by decide, by decide, by decide, by decide⟩,
    C6_seeds rnd64 sqrt64 (fun _ _ => 0) NTRIALS 1 4 0 1 (by decide) (by decide) (by decide)
      (by decide)⟩

/-- C7 at `N = 10000000` and `p = 1/2`. -/
theorem C7_error_formula_witness :
    (0 < 10000000 ∧ (0 : ℝ) ≤ 1 / 2 ∧ (1 / 2 : ℝ) ≤ 1) ∧
    (errpie id Real.sqrt 10000000 (1 / 2) = spec_err_pi id Real.sqrt 10000000 (1 / 2) ∧
     errpie id Real.sqrt 10000000 (1 / 2) =
       4 * (f3 id Real.sqrt + f4 id Real.sqrt) * Real.sqrt (1 / 2 * (1 - 1 / 2)) /
         Real.sqrt (10000000 : Nat) ∧
     (∀ M : Nat, 0 < M →
       errpie id Real.sqrt M (1 / 2) * Real.sqrt M =
         errpie id Real.sqrt 10000000 (1 / 2) * Real.sqrt (10000000 : Nat))) :=
  ⟨⟨by decide, by norm_num, by norm_num⟩,
    C7_error_formula 10000000 (1 / 2) (by decide) (by norm_num) (by norm_num)⟩

/-- C8 in binary64 at trial target `10`, base seed `1`, four threads, and the
orders `0, 1, 2, 3` and `3, 2, 1, 0` of the additions. -/
theorem C8_determinism_witness :
    (10 < ULONG_MOD ∧ 1 ≤ 4 ∧ [0, 1, 2, 3].Perm (List.range 4) ∧
      [3, 2, 1, 0].Perm (List.range 4)) ∧
    ((∀ t, (task rnd64 sqrt64 (fun _ _ => 0) 10 1 4 t).myseed = (1 + t) % 2 ^ 64 ∧
           (task rnd64 sqrt64 (fun _ _ => 0) 10 1 4 t).nhits =
             hitCount rnd64 sqrt64 ((fun _ _ => (0 : ℚ)) ((1 + t) % 2 ^ 64)) (10 / 4)) ∧
     parallelRegion rnd64 sqrt64 (fun _ _ => 0) 10 1 4 [0, 1, 2, 3] =
       parallelRegion rnd64 sqrt64 (fun _ _ => 0) 10 1 4 [3, 2, 1, 0] ∧
     master rnd64 sqrt64 10 (parallelRegion rnd64 sqrt64 (fun _ _ => 0) 10 1 4 [0, 1, 2, 3]) =
       master rnd64 sqrt64 10
         (parallelRegion rnd64 sqrt64 (fun _ _ => 0) 10 1 4 [3, 2, 1, 0]) ∧
     main rnd64 sqrt64 (fun _ _ => 0) 1 4 [0, 1, 2, 3] =
       main rnd64 sqrt64 (fun _ _ => 0) 1 4 [3, 2, 1, 0] ∧
     (∀ (h : Nat → Nat) (orig : Nat) (order : List Nat), order.Perm [0, 1, 2, 3] →
       reduction h order orig = reduction h [0, 1, 2, 3] orig)) :=
  ⟨⟨by decide, by decide, by decide, by decide⟩,
    C8_determinism rnd64 sqrt64 (fun _ _ => 0) 10 1 4 [0, 1, 2, 3] [3, 2, 1, 0]
      (by decide) (by decide) (by decide) (by decide)⟩

/-- C10, amended, at base seed `1`, three threads (which do not divide
`NTRIALS`), the all-zero stream and the order `0, 1, 2` of the additions. -/
theorem C10_estimator_range_binary64_witness :
    (1 ≤ 3 ∧ [0, 1, 2].Perm (List.range 3)) ∧
    (0 ≤ (main rnd64 sqrt64 (fun _ _ => 0) 1 3 [0, 1, 2]).p ∧
     (main rnd64 sqrt64 (fun _ _ => 0) 1 3 [0, 1, 2]).p ≤
       p rnd64 NTRIALS (3 * (NTRIALS / 3)) ∧
     p rnd64 NTRIALS (3 * (NTRIALS / 3)) ≤ 1 ∧
     ((main rnd64 sqrt64 (fun _ _ => 0) 1 3 [0, 1, 2]).p = 1 → 3 ∣ NTRIALS) ∧
     0 ≤ varn rnd64 NTRIALS (main rnd64 sqrt64 (fun _ _ => 0) 1 3 [0, 1, 2]).p ∧
     4 * f1 rnd64 sqrt64 ≤ (main rnd64 sqrt64 (fun _ _ => 0) 1 3 [0, 1, 2]).pie_estimate ∧
     (main rnd64 sqrt64 (fun _ _ => 0) 1 3 [0, 1, 2]).pie_estimate ≤
       pie_estimate rnd64 sqrt64 1 ∧
     4 * f1 rnd64 sqrt64 = 2 - 1 / 2 ^ 51 ∧
     pie_estimate rnd64 sqrt64 1 = 1029312964710131 / 2 ^ 48 ∧
     ((pie_estimate rnd64 sqrt64 1 : ℚ) : ℝ) ≤ 4 * Real.sqrt 2 - 2) :=
  ⟨⟨by decide, by decide⟩,
    C10_estimator_range_binary64 (fun _ _ => 0) 1 3 [0, 1, 2] (by decide) (by decide)⟩

end Pie
